import Mathlib

/-!
# prodcon: producer / consumer over a shared region, with a 16-bit checksum trailer

A shallow embedding of `src/prodcon.c`, followed by the properties of it that
its specification states.

## How the C program is read

* The shared region `unsigned char* shared_memory` is a function from byte
  offsets to the value held there; a store through an `unsigned char` lvalue
  keeps the value modulo 256.
* `unsigned short` is 16 bits wide: `checksum += x` is addition modulo `2^16`.
* `((unsigned short*)shared_memory)[k]` covers the byte offsets `2*k` and
  `2*k+1`; which of the two holds the low half depends on the machine, so the
  byte order is a parameter (`Endian`) of everything that touches the trailer.
* `rand()` is a stream `Nat → Int` together with the number of calls made so
  far; `%` on `int` is truncated remainder.
* The code of one critical section is given twice: as functions that run a
  whole loop (`producerBlock`, `consumerBlock`), and as single steps of the two
  threads (`stepP`, `stepC`) over one state, a run being any interleaving of
  such steps. `producerSteps_block` and `consumerSteps_block` show that the two
  agree.
* `sem_wait` returns only when the counter is positive and lowers it,
  `sem_post` raises it, `pthread_mutex_lock` returns only when the mutex is
  free; these calls never fail. `exit(1)` ends both threads.

## Contents

Definitions of the program, then of the predicates used to speak about it,
then the lemmas and the theorems `C1_…` to `C10_…`.
-/

namespace Prodcon

/-! ## Constants and argument validation (`main`, lines 48-77) -/

/-- The constant `BLOCK_SIZE` of the source. -/
def BLOCK_SIZE : Nat := 32

/-- The constant `MAX_MEM_SIZE` of the source. -/
def MAX_MEM_SIZE : Nat := 64000

/-- The globals `memsize`, `blocks`, `n_times` once `main` has set them. -/
structure Config where
  memsize : Nat
  blocks : Nat
  n_times : Nat
deriving DecidableEq, Repr

/-- The body of `main` up to the initialisation of the globals, on the values
`atoi(argv[1])` and `atoi(argv[2])`: `Except.error r` is `return r` before line
73, `Except.ok c` are the globals after line 76. The operator `%` of C is
truncated remainder. -/
def mainArgs (argc : Nat) (a1 a2 : Int) : Except Int Config :=
  if argc ≠ 3 then Except.error (-1)
  else if a1 < 1 then Except.error (-1)
  else if a2 < 1 then Except.error (-1)
  else if Int.tmod a1 32 ≠ 0 then Except.error (-1)
  else if a1 > (MAX_MEM_SIZE : Int) then Except.error (-1)
  else Except.ok
    { memsize := a1.toNat, blocks := a1.toNat / BLOCK_SIZE, n_times := a2.toNat }

/-- The configurations `main` lets through: what lines 56-76 establish. -/
def Accepted (c : Config) : Prop :=
  0 < c.memsize ∧ c.memsize % 32 = 0 ∧ c.memsize ≤ MAX_MEM_SIZE ∧
    c.blocks = c.memsize / BLOCK_SIZE ∧ 1 ≤ c.n_times

instance (c : Config) : Decidable (Accepted c) := by
  unfold Accepted; infer_instance

/-! ## Memory, bytes and the 16-bit trailer -/

/-- The shared region: byte offset to byte value. -/
abbrev Mem := Nat → Nat

/-- The store `shared_memory[i] = v` through an `unsigned char` lvalue. -/
def storeByte (m : Mem) (i v : Nat) : Mem :=
  fun j => if j = i then v % 256 else m j

/-- The value `rand()%255` (truncated remainder on `int`) after conversion to
`unsigned char`. -/
def randByte (r : Int) : Nat := ((Int.tmod r 255) % 256).toNat

/-- The update `acc += byte` on an `unsigned short` accumulator. -/
def addU16 (acc byte : Nat) : Nat := (acc + byte) % 65536

/-- Byte order of the machine for 16-bit objects. -/
inductive Endian where
  | little
  | big
deriving DecidableEq, Repr

/-- The store `((unsigned short int *)shared_memory)[k] = v`. -/
def storeU16 (e : Endian) (m : Mem) (k v : Nat) : Mem :=
  match e with
  | Endian.little => storeByte (storeByte m (2 * k) v) (2 * k + 1) (v / 256)
  | Endian.big => storeByte (storeByte m (2 * k) (v / 256)) (2 * k + 1) v

/-- The load `((unsigned short int *)shared_memory)[k]`. -/
def loadU16 (e : Endian) (m : Mem) (k : Nat) : Nat :=
  match e with
  | Endian.little => m (2 * k) % 256 + 256 * (m (2 * k + 1) % 256)
  | Endian.big => 256 * (m (2 * k) % 256) + m (2 * k + 1) % 256

/-- The loop start `block*BLOCK_SIZE` (lines 134 and 181). -/
def payloadStart (block : Nat) : Nat := block * BLOCK_SIZE

/-- The loop bound `((block+1)*BLOCK_SIZE)-2` (lines 134 and 181). -/
def payloadStop (block : Nat) : Nat := (block + 1) * BLOCK_SIZE - 2

/-- The subscript `(index+1)/2` of the trailer (lines 141 and 186). -/
def trailerSlot (index : Nat) : Nat := (index + 1) / 2

/-! ## The two loops, block by block (sequential reading) -/

/-- The locals and globals the producer's payload loop changes. -/
structure FillState where
  mem : Mem
  checksum : Nat
  index : Nat
  calls : Nat

/-- One pass of the body of the producer's payload loop with its `++index`
(lines 135-136). -/
def fillBody (rand : Nat → Int) (st : FillState) : FillState :=
  let mem1 := storeByte st.mem st.index (randByte (rand st.calls))
  { mem := mem1
    checksum := addU16 st.checksum (mem1 st.index)
    index := st.index + 1
    calls := st.calls + 1 }

/-- The producer's payload loop (line 134), entered with `index` already set;
`fuel` bounds the number of passes. -/
def producerFill (rand : Nat → Int) (stop : Nat) : Nat → FillState → FillState
  | 0, st => st
  | fuel + 1, st =>
    if st.index < stop then producerFill rand stop fuel (fillBody rand st) else st

/-- The locals of the consumer's checksum loop. -/
structure SumState where
  calculated_checksum : Nat
  index : Nat
deriving DecidableEq, Repr

/-- One pass of the body of the consumer's loop with its `++index` (line 182). -/
def sumBody (m : Mem) (st : SumState) : SumState :=
  { calculated_checksum := addU16 st.calculated_checksum (m st.index)
    index := st.index + 1 }

/-- The consumer's checksum loop (line 181); `fuel` bounds the number of
passes. -/
def consumerSum (m : Mem) (stop : Nat) : Nat → SumState → SumState
  | 0, st => st
  | fuel + 1, st =>
    if st.index < stop then consumerSum m stop fuel (sumBody m st) else st

/-- The producer's payload loop for `block` with its initialisation (lines
131-137); 30 passes are made, `BLOCK_SIZE` is fuel enough. -/
def producerLoop (rand : Nat → Int) (m : Mem) (calls block : Nat) : FillState :=
  producerFill rand (payloadStop block) BLOCK_SIZE
    { mem := m, checksum := 0, index := payloadStart block, calls := calls }

/-- The consumer's checksum loop for `block` with its initialisation (lines
178-183). -/
def consumerLoop (m : Mem) (block : Nat) : SumState :=
  consumerSum m (payloadStop block) BLOCK_SIZE
    { calculated_checksum := 0, index := payloadStart block }

/-- The producer's critical section for one block (lines 131-141): the memory
and the number of `rand()` calls after it. -/
def producerBlock (e : Endian) (rand : Nat → Int) (m : Mem) (calls block : Nat) :
    Mem × Nat :=
  let st := producerLoop rand m calls block
  (storeU16 e st.mem (trailerSlot st.index) st.checksum, st.calls)

/-- What the consumer prints before `exit(1)` (lines 194-195). -/
structure Report where
  block : Nat
  iteration : Nat
  given_checksum : Nat
  calculated_checksum : Nat
deriving DecidableEq, Repr

/-- The consumer's critical section for one block (lines 178-197):
`Except.error` is the branch that ends in `exit(1)`. -/
def consumerBlock (e : Endian) (m : Mem) (block n : Nat) : Except Report Unit :=
  let st := consumerLoop m block
  let given_checksum := loadU16 e m (trailerSlot st.index)
  if given_checksum ≠ st.calculated_checksum then
    Except.error
      { block := block, iteration := n, given_checksum := given_checksum
        calculated_checksum := st.calculated_checksum }
  else Except.ok ()

/-! ## The two threads as step functions

One step is one statement of the source, with at most one access to shared
state (a semaphore, the mutex, the region, `rand`); the loop tests and the
updates of locals that surround it ride along. Every call on a semaphore or on
the mutex returns 0. -/

/-- Program points of `producerThread`. -/
inductive PPc where
  /-- The test `n < n_times` (line 118). -/
  | outer
  /-- The call `sem_wait(&sem[0])` (line 123), then `block = 0`. -/
  | semWait
  /-- The test `block < blocks` (line 127); `++n` when it fails. -/
  | inner
  /-- The call `pthread_mutex_lock` (line 129), then `checksum = 0` and the
  initialisation of `index`. -/
  | lock
  /-- The test `index < ...` and the store of line 135. -/
  | fill
  /-- The update `checksum += shared_memory[index]` (line 136), then `++index`. -/
  | fillSum
  /-- The store of the trailer (line 141). -/
  | store
  /-- The call `pthread_mutex_unlock` (line 143). -/
  | unlock
  /-- The call `sem_post(&sem[1])` (line 146), then `block++`. -/
  | post
  /-- The call `pthread_exit(0)` (line 152). -/
  | done
deriving DecidableEq, Repr

/-- Program points of `consumerThread`. -/
inductive CPc where
  /-- The test `n < n_times` (line 165), then `index = 0` and `block = 0`. -/
  | outer
  /-- The test `block < blocks` (line 169). -/
  | inner
  /-- The call `sem_wait(&sem[1])` (line 172). -/
  | semWait
  /-- The call `pthread_mutex_lock` (line 176), then `calculated_checksum = 0`
  and the initialisation of `index`. -/
  | lock
  /-- The test `index < ...` and the update of line 182, then `++index`. -/
  | sum
  /-- The load of the trailer into `given_checksum` (line 186). -/
  | load
  /-- The comparison of line 193, with `exit(1)` on a mismatch. -/
  | cmp
  /-- The call `pthread_mutex_unlock` (line 200), then `block++`. -/
  | unlock
  /-- The call `sem_post(&sem[0])` (line 204), then `++n`. -/
  | post
  /-- The call `pthread_exit(0)` (line 208). -/
  | done
deriving DecidableEq, Repr

/-- What the instrumented threads record, with the cycle `n` and the block. -/
inductive Event where
  /-- The producer is back from `sem_wait(&sem[0])` for cycle `n`. -/
  | cycleEntered (n : Nat)
  /-- The producer has taken the mutex to write `block` in cycle `n`. -/
  | writeBegin (n block : Nat)
  /-- The producer has stored the trailer of `block` in cycle `n`. -/
  | writeEnd (n block : Nat)
  /-- The consumer has taken the mutex to read `block` in cycle `n`. -/
  | readBegin (n block : Nat)
  /-- The consumer has compared the checksums of `block` in cycle `n` and
  found them equal. -/
  | readEnd (n block : Nat)
  /-- The consumer has called `sem_post(&sem[0])` at the end of cycle `n`. -/
  | cyclePosted (n : Nat)
deriving DecidableEq, Repr

/-- The state of the process once both threads exist: the globals
`shared_memory`, `sem[0]`, `sem[1]`, `mutex`, the number of `rand()` calls made,
and for each thread its program point and its locals. Both threads call their
locals `n`, `block` and `index`: those of `producerThread` are `nP`, `blockP`,
`indexP` here, those of `consumerThread` are `nC`, `blockC`, `indexC`.
`exited` holds the report once `exit(1)` was called. The last three fields are
instrumentation, which no step reads: `produced` and `consumed` count the
trailer stores and the passed comparisons, `log` holds the events so far, the
latest first. -/
structure State where
  shared_memory : Mem
  sem0 : Nat
  sem1 : Nat
  mutex : Bool
  calls : Nat
  pcP : PPc
  nP : Nat
  blockP : Nat
  indexP : Nat
  checksum : Nat
  pcC : CPc
  nC : Nat
  blockC : Nat
  indexC : Nat
  calculated_checksum : Nat
  given_checksum : Nat
  exited : Option Report
  produced : Nat
  consumed : Nat
  log : List Event

/-- The state when `main` has created both threads (lines 77-92): `sem[0]` is
1, `sem[1]` is 0, the mutex is free and the region holds whatever `malloc`
left there. -/
def initState (m0 : Mem) : State :=
  { shared_memory := m0, sem0 := 1, sem1 := 0, mutex := false, calls := 0
    pcP := PPc.outer, nP := 0, blockP := 0, indexP := 0, checksum := 0
    pcC := CPc.outer, nC := 0, blockC := 0, indexC := 0, calculated_checksum := 0
    given_checksum := 0
    exited := none, produced := 0, consumed := 0, log := [] }

/-- One step of `producerThread`; `none` when the thread is blocked, has
ended, or the process has exited. -/
def stepP (c : Config) (rand : Nat → Int) (e : Endian) (s : State) : Option State :=
  if s.exited.isSome then none else
  match s.pcP with
  | PPc.outer =>
    if s.nP < c.n_times then some { s with pcP := PPc.semWait }
    else some { s with pcP := PPc.done }
  | PPc.semWait =>
    if 0 < s.sem0 then
      some { s with sem0 := s.sem0 - 1, blockP := 0, pcP := PPc.inner
                    log := Event.cycleEntered s.nP :: s.log }
    else none
  | PPc.inner =>
    if s.blockP < c.blocks then some { s with pcP := PPc.lock }
    else some { s with nP := s.nP + 1, pcP := PPc.outer }
  | PPc.lock =>
    if s.mutex then none
    else some { s with mutex := true, checksum := 0, indexP := payloadStart s.blockP
                       pcP := PPc.fill, log := Event.writeBegin s.nP s.blockP :: s.log }
  | PPc.fill =>
    if s.indexP < payloadStop s.blockP then
      some { s with shared_memory := storeByte s.shared_memory s.indexP (randByte (rand s.calls))
                    calls := s.calls + 1, pcP := PPc.fillSum }
    else some { s with pcP := PPc.store }
  | PPc.fillSum =>
    some { s with checksum := addU16 s.checksum (s.shared_memory s.indexP)
                  indexP := s.indexP + 1, pcP := PPc.fill }
  | PPc.store =>
    some { s with shared_memory := storeU16 e s.shared_memory (trailerSlot s.indexP) s.checksum
                  produced := s.produced + 1, pcP := PPc.unlock
                  log := Event.writeEnd s.nP s.blockP :: s.log }
  | PPc.unlock => some { s with mutex := false, pcP := PPc.post }
  | PPc.post => some { s with sem1 := s.sem1 + 1, blockP := s.blockP + 1, pcP := PPc.inner }
  | PPc.done => none

/-- One step of `consumerThread`; `none` when the thread is blocked, has
ended, or the process has exited. -/
def stepC (c : Config) (e : Endian) (s : State) : Option State :=
  if s.exited.isSome then none else
  match s.pcC with
  | CPc.outer =>
    if s.nC < c.n_times then some { s with indexC := 0, blockC := 0, pcC := CPc.inner }
    else some { s with pcC := CPc.done }
  | CPc.inner =>
    if s.blockC < c.blocks then some { s with pcC := CPc.semWait }
    else some { s with pcC := CPc.post }
  | CPc.semWait =>
    if 0 < s.sem1 then some { s with sem1 := s.sem1 - 1, pcC := CPc.lock } else none
  | CPc.lock =>
    if s.mutex then none
    else some { s with mutex := true, calculated_checksum := 0, indexC := payloadStart s.blockC
                       pcC := CPc.sum, log := Event.readBegin s.nC s.blockC :: s.log }
  | CPc.sum =>
    if s.indexC < payloadStop s.blockC then
      some { s with calculated_checksum := addU16 s.calculated_checksum (s.shared_memory s.indexC)
                    indexC := s.indexC + 1 }
    else some { s with pcC := CPc.load }
  | CPc.load =>
    some { s with given_checksum := loadU16 e s.shared_memory (trailerSlot s.indexC)
                  pcC := CPc.cmp }
  | CPc.cmp =>
    if s.given_checksum ≠ s.calculated_checksum then
      some { s with
        exited := some (Report.mk s.blockC s.nC s.given_checksum s.calculated_checksum) }
    else some { s with consumed := s.consumed + 1, pcC := CPc.unlock
                       log := Event.readEnd s.nC s.blockC :: s.log }
  | CPc.unlock => some { s with mutex := false, blockC := s.blockC + 1, pcC := CPc.inner }
  | CPc.post =>
    some { s with sem0 := s.sem0 + 1, nC := s.nC + 1, pcC := CPc.outer
                  log := Event.cyclePosted s.nC :: s.log }
  | CPc.done => none

/-- One step of the process: a step of either thread. -/
def Step (c : Config) (rand : Nat → Int) (e : Endian) (s t : State) : Prop :=
  stepP c rand e s = some t ∨ stepC c e s = some t

/-- The states some interleaving of the two threads reaches from `s0`. -/
inductive Reachable (c : Config) (rand : Nat → Int) (e : Endian) (s0 : State) :
    State → Prop where
  | start : Reachable c rand e s0 s0
  | next {s t : State} : Reachable c rand e s0 s → Step c rand e s t →
      Reachable c rand e s0 t

/-- Follow a schedule: `true` lets the producer take a step, `false` the
consumer; a thread that cannot step leaves the state as it is. -/
def exec (c : Config) (rand : Nat → Int) (e : Endian) : List Bool → State → State
  | [], s => s
  | true :: rest, s => exec c rand e rest ((stepP c rand e s).getD s)
  | false :: rest, s => exec c rand e rest ((stepC c e s).getD s)

/-- Both threads have called `pthread_exit`: `main` joins them and returns 0. -/
def Finished (s : State) : Prop := s.pcP = PPc.done ∧ s.pcC = CPc.done

instance (s : State) : Decidable (Finished s) := by
  unfold Finished; infer_instance

/-! ## Quantities read off a state -/

/-- 1 at the program points of the producer between its `sem_wait` and the end
of the cycle it opens, 0 elsewhere. -/
def inBody : PPc → Nat
  | PPc.inner => 1
  | PPc.lock => 1
  | PPc.fill => 1
  | PPc.fillSum => 1
  | PPc.store => 1
  | PPc.unlock => 1
  | PPc.post => 1
  | _ => 0

/-- The producer holds the mutex. -/
def critP : PPc → Bool
  | PPc.fill => true
  | PPc.fillSum => true
  | PPc.store => true
  | PPc.unlock => true
  | _ => false

/-- The consumer holds the mutex. -/
def critC : CPc → Bool
  | CPc.sum => true
  | CPc.load => true
  | CPc.cmp => true
  | CPc.unlock => true
  | _ => false

/-- How many times the producer has posted `sem[1]` in its current cycle. -/
def posted : PPc → Nat → Nat
  | PPc.inner, block => block
  | PPc.lock, block => block
  | PPc.fill, block => block
  | PPc.fillSum, block => block
  | PPc.store, block => block
  | PPc.unlock, block => block
  | PPc.post, block => block
  | _, _ => 0

/-- How many blocks the producer has finished (trailer stored) in its current
cycle. -/
def written : PPc → Nat → Nat
  | PPc.inner, block => block
  | PPc.lock, block => block
  | PPc.fill, block => block
  | PPc.fillSum, block => block
  | PPc.store, block => block
  | PPc.unlock, block => block + 1
  | PPc.post, block => block + 1
  | _, _ => 0

/-- How many times the consumer has come back from `sem_wait(&sem[1])` in its
current cycle. -/
def taken : CPc → Nat → Nat
  | CPc.inner, block => block
  | CPc.semWait, block => block
  | CPc.post, block => block
  | CPc.lock, block => block + 1
  | CPc.sum, block => block + 1
  | CPc.load, block => block + 1
  | CPc.cmp, block => block + 1
  | CPc.unlock, block => block + 1
  | _, _ => 0

/-- How many blocks the consumer has checked and passed in its current cycle. -/
def checked : CPc → Nat → Nat
  | CPc.unlock, block => block + 1
  | CPc.outer, _ => 0
  | CPc.done, _ => 0
  | _, block => block

/-- The consumer is between its `sem_wait(&sem[1])` for a block and the end of
its comparison for that block: it is about to read, or is reading, the block. -/
def reading : CPc → Bool
  | CPc.lock => true
  | CPc.sum => true
  | CPc.load => true
  | CPc.cmp => true
  | _ => false

/-- The producer is between taking the mutex for a block and releasing it: it
is writing the block. -/
def writing : PPc → Bool
  | PPc.fill => true
  | PPc.fillSum => true
  | PPc.store => true
  | _ => false

/-- The producer's write of block `i` in cycle `n` is complete: the producer
is in a later cycle, or in cycle `n` at a later block, or in cycle `n` at block
`i` past the trailer store. -/
def producerPast (s : State) (n i : Nat) : Prop :=
  n < s.nP ∨ (s.nP = n ∧ inBody s.pcP = 1 ∧ i < written s.pcP s.blockP)

/-- The consumer's check of block `b` in cycle `k` is complete: the consumer
is in a later cycle, or in cycle `k` past its comparison for block `b`. -/
def consumerPast (s : State) (k b : Nat) : Prop :=
  k < s.nC ∨ (s.nC = k ∧ b < checked s.pcC s.blockC)

/-- In `log` (latest event first) every occurrence of `b` has an occurrence of
`a` before it in time. -/
def Precedes (a b : Event) (log : List Event) : Prop :=
  ∀ newer older, log = newer ++ b :: older → a ∈ older

/-- In `log` (latest event first) no occurrence of `a` comes later in time
than an occurrence of `b`. -/
def NotAfter (a b : Event) (log : List Event) : Prop :=
  ∀ newer older, log = newer ++ b :: older → a ∉ newer

/-- The accumulated value `acc` is the sum of the cells from `start` up to,
not including, `index`, modulo `2^16`. -/
def partialSum (m : Mem) (start index acc : Nat) : Prop :=
  acc = (Finset.sum (Finset.range (index - start)) (fun k => m (start + k))) % 65536

/-- Block `i` of the region carries the checksum of its own payload. -/
def Good (e : Endian) (m : Mem) (i : Nat) : Prop :=
  loadU16 e m (trailerSlot (32 * i + 30)) = (consumerLoop m i).calculated_checksum

/-- What holds of the producer's locals `n`, `block`, `index` at each of its
program points. -/
def locP (c : Config) : PPc → Nat → Nat → Nat → Prop
  | PPc.outer, n, _, _ => n ≤ c.n_times
  | PPc.semWait, n, _, _ => n < c.n_times
  | PPc.inner, n, block, _ => n < c.n_times ∧ block ≤ c.blocks
  | PPc.lock, n, block, _ => n < c.n_times ∧ block < c.blocks
  | PPc.fill, n, block, index => n < c.n_times ∧ block < c.blocks ∧
      32 * block ≤ index ∧ index ≤ 32 * block + 30
  | PPc.fillSum, n, block, index => n < c.n_times ∧ block < c.blocks ∧
      32 * block ≤ index ∧ index < 32 * block + 30
  | PPc.store, n, block, index => n < c.n_times ∧ block < c.blocks ∧ index = 32 * block + 30
  | PPc.unlock, n, block, _ => n < c.n_times ∧ block < c.blocks
  | PPc.post, n, block, _ => n < c.n_times ∧ block < c.blocks
  | PPc.done, n, _, _ => n = c.n_times

/-- What holds of the consumer's locals `n`, `block`, `index` at each of its
program points. -/
def locC (c : Config) : CPc → Nat → Nat → Nat → Prop
  | CPc.outer, n, _, _ => n ≤ c.n_times
  | CPc.inner, n, block, _ => n < c.n_times ∧ block ≤ c.blocks
  | CPc.semWait, n, block, _ => n < c.n_times ∧ block < c.blocks
  | CPc.lock, n, block, _ => n < c.n_times ∧ block < c.blocks
  | CPc.sum, n, block, index => n < c.n_times ∧ block < c.blocks ∧
      32 * block ≤ index ∧ index ≤ 32 * block + 30
  | CPc.load, n, block, index => n < c.n_times ∧ block < c.blocks ∧ index = 32 * block + 30
  | CPc.cmp, n, block, _ => n < c.n_times ∧ block < c.blocks
  | CPc.unlock, n, block, _ => n < c.n_times ∧ block < c.blocks
  | CPc.post, n, block, _ => n < c.n_times ∧ block = c.blocks
  | CPc.done, n, _, _ => n = c.n_times

/-- The counting invariant of the protocol: the two semaphores, the mutex, the
locals of both threads and the two counters. -/
structure InvA (c : Config) (s : State) : Prop where
  sem0 : s.sem0 + s.nP + inBody s.pcP = 1 + s.nC
  sem1 : s.sem1 + s.nC * c.blocks + taken s.pcC s.blockC =
    s.nP * c.blocks + posted s.pcP s.blockP
  mutex : s.mutex = (critP s.pcP || critC s.pcC)
  excl : critP s.pcP = false ∨ critC s.pcC = false
  locP : locP c s.pcP s.nP s.blockP s.indexP
  locC : locC c s.pcC s.nC s.blockC s.indexC
  produced : s.produced = s.nP * c.blocks + written s.pcP s.blockP
  consumed : s.consumed = s.nC * c.blocks + checked s.pcC s.blockC

/-- What the producer's accumulator holds at each of its program points. -/
def accP (m : Mem) : PPc → Nat → Nat → Nat → Prop
  | PPc.fill, block, index, checksum => partialSum m (32 * block) index checksum
  | PPc.fillSum, block, index, checksum => partialSum m (32 * block) index checksum
  | PPc.store, block, _, checksum => checksum = (consumerLoop m block).calculated_checksum
  | _, _, _, _ => True

/-- What the consumer's accumulator and `given_checksum` hold at each of its
program points. -/
def accC (e : Endian) (m : Mem) : CPc → Nat → Nat → Nat → Nat → Prop
  | CPc.sum, block, index, acc, _ => partialSum m (32 * block) index acc
  | CPc.load, block, _, acc, _ => acc = (consumerLoop m block).calculated_checksum
  | CPc.cmp, block, _, acc, given =>
      acc = (consumerLoop m block).calculated_checksum ∧
      given = loadU16 e m (trailerSlot (32 * block + 30))
  | _, _, _, _, _ => True

/-- How many leading blocks of the region are known to carry their checksum:
those the producer has finished in the cycle it is in; all of them between two
of its cycles, once it has been through one. -/
def goodCount (c : Config) : PPc → Nat → Nat → Nat
  | PPc.inner, _, block => block
  | PPc.lock, _, block => block
  | PPc.fill, _, block => block
  | PPc.fillSum, _, block => block
  | PPc.store, _, block => block
  | PPc.unlock, _, block => block + 1
  | PPc.post, _, block => block + 1
  | _, n, _ => if 0 < n then c.blocks else 0

/-- What holds of the region and of the accumulators at each program point. -/
structure InvM (c : Config) (e : Endian) (s : State) : Prop where
  exited : s.exited = none
  accP : accP s.shared_memory s.pcP s.blockP s.indexP s.checksum
  accC : accC e s.shared_memory s.pcC s.blockC s.indexC s.calculated_checksum s.given_checksum
  good : ∀ i, i < goodCount c s.pcP s.nP s.blockP → Good e s.shared_memory i

/-- Whoever holds the mutex has logged the begin of its access, and the
producer inside a cycle has logged its entry. -/
structure InvT (s : State) : Prop where
  entered : inBody s.pcP = 1 → Event.cycleEntered s.nP ∈ s.log
  writeLogged : critP s.pcP = true → Event.writeBegin s.nP s.blockP ∈ s.log
  readLogged : critC s.pcC = true → Event.readBegin s.nC s.blockC ∈ s.log

/-- What the log holds, and in which order. -/
structure InvL (c : Config) (s : State) : Prop where
  wrote : ∀ n i, producerPast s n i → i < c.blocks → Event.writeEnd n i ∈ s.log
  readPast : ∀ n i, Event.readBegin n i ∈ s.log → producerPast s n i
  checkedAll : ∀ k b, consumerPast s k b → b < c.blocks → Event.readEnd k b ∈ s.log
  postedAll : ∀ k, k < s.nC → Event.cyclePosted k ∈ s.log
  writeRead : ∀ n i, Precedes (Event.writeEnd n i) (Event.readBegin n i) s.log
  noRewrite : ∀ n i, NotAfter (Event.writeBegin n i) (Event.readBegin n i) s.log ∧
    NotAfter (Event.writeEnd n i) (Event.readBegin n i) s.log
  postEnter : ∀ k, Precedes (Event.cyclePosted k) (Event.cycleEntered (k + 1)) s.log
  checkEnter : ∀ k b, b < c.blocks →
    Precedes (Event.readEnd k b) (Event.cycleEntered (k + 1)) s.log
  checkWrite : ∀ k b b1, b < c.blocks →
    Precedes (Event.readEnd k b) (Event.writeBegin (k + 1) b1) s.log
  postWrite : ∀ k b1, Precedes (Event.cyclePosted k) (Event.writeBegin (k + 1) b1) s.log
  enterWrite : ∀ n b, Precedes (Event.cycleEntered n) (Event.writeBegin n b) s.log

/-- Every cell of the region holds a byte. -/
def IsBytes (m : Mem) : Prop := ∀ j, m j < 256

/-- What holds in every state reached after a payload byte of block `i` was
changed while the consumer was about to take the mutex for its check of that
block in cycle `n`: `mb` is the region right after the change, `consumed0` the
count of passed comparisons then. Either the process has exited with the
report on that block, or the consumer is still at that check, block `i` is as
in `mb`, and no further comparison has passed. -/
structure Doomed (c : Config) (e : Endian) (mb : Mem) (n i consumed0 : Nat) (t : State) :
    Prop where
  invA : InvA c t
  consumed : t.consumed = consumed0
  cycle : t.nC = n
  block : t.blockC = i
  mem : ∀ j, 32 * i ≤ j → j < 32 * i + 32 → t.shared_memory j = mb j
  phase : (t.exited = none ∧ reading t.pcC = true ∧
      accC e t.shared_memory t.pcC t.blockC t.indexC t.calculated_checksum t.given_checksum) ∨
    t.exited = some
      { block := i, iteration := n
        given_checksum := loadU16 e mb (trailerSlot (32 * i + 30))
        calculated_checksum := (consumerLoop mb i).calculated_checksum }

/-! ## A bound on the steps left -/

/-- Steps the producer has left, when it is never held up for good. -/
def remP (c : Config) (s : State) : Nat :=
  match s.pcP with
  | PPc.done => 0
  | PPc.outer => (c.n_times - s.nP) * (66 * c.blocks + 3) + 1
  | PPc.semWait => (c.n_times - (s.nP + 1)) * (66 * c.blocks + 3) + 1 + (66 * c.blocks + 2)
  | PPc.inner => (c.n_times - (s.nP + 1)) * (66 * c.blocks + 3) + 1 +
      (66 * (c.blocks - s.blockP) + 1)
  | PPc.lock => (c.n_times - (s.nP + 1)) * (66 * c.blocks + 3) + 1 +
      66 * (c.blocks - s.blockP)
  | PPc.fill => (c.n_times - (s.nP + 1)) * (66 * c.blocks + 3) + 1 +
      (66 * (c.blocks - (s.blockP + 1)) + 5 + 2 * (32 * s.blockP + 30 - s.indexP))
  | PPc.fillSum => (c.n_times - (s.nP + 1)) * (66 * c.blocks + 3) + 1 +
      (66 * (c.blocks - (s.blockP + 1)) + 4 + 2 * (32 * s.blockP + 30 - s.indexP))
  | PPc.store => (c.n_times - (s.nP + 1)) * (66 * c.blocks + 3) + 1 +
      (66 * (c.blocks - (s.blockP + 1)) + 4)
  | PPc.unlock => (c.n_times - (s.nP + 1)) * (66 * c.blocks + 3) + 1 +
      (66 * (c.blocks - (s.blockP + 1)) + 3)
  | PPc.post => (c.n_times - (s.nP + 1)) * (66 * c.blocks + 3) + 1 +
      (66 * (c.blocks - (s.blockP + 1)) + 2)

/-- Steps the consumer has left, when it is never held up for good. -/
def remC (c : Config) (s : State) : Nat :=
  match s.pcC with
  | CPc.done => 0
  | CPc.outer => (c.n_times - s.nC) * (37 * c.blocks + 3) + 1
  | CPc.post => (c.n_times - (s.nC + 1)) * (37 * c.blocks + 3) + 1 + 1
  | CPc.inner => (c.n_times - (s.nC + 1)) * (37 * c.blocks + 3) + 1 +
      (37 * (c.blocks - s.blockC) + 2)
  | CPc.semWait => (c.n_times - (s.nC + 1)) * (37 * c.blocks + 3) + 1 +
      (37 * (c.blocks - (s.blockC + 1)) + 38)
  | CPc.lock => (c.n_times - (s.nC + 1)) * (37 * c.blocks + 3) + 1 +
      (37 * (c.blocks - (s.blockC + 1)) + 37)
  | CPc.sum => (c.n_times - (s.nC + 1)) * (37 * c.blocks + 3) + 1 +
      (37 * (c.blocks - (s.blockC + 1)) + 6 + (32 * s.blockC + 30 - s.indexC))
  | CPc.load => (c.n_times - (s.nC + 1)) * (37 * c.blocks + 3) + 1 +
      (37 * (c.blocks - (s.blockC + 1)) + 5)
  | CPc.cmp => (c.n_times - (s.nC + 1)) * (37 * c.blocks + 3) + 1 +
      (37 * (c.blocks - (s.blockC + 1)) + 4)
  | CPc.unlock => (c.n_times - (s.nC + 1)) * (37 * c.blocks + 3) + 1 +
      (37 * (c.blocks - (s.blockC + 1)) + 3)

/-- Steps the process has left: nothing once it has exited. -/
def remaining (c : Config) (s : State) : Nat :=
  if s.exited.isSome then 0 else remP c s + remC c s

/-! ## Runs of one thread, schedules, and the bytes a step touches -/

/-- The states reached from `s0` by exactly `k` steps of the process. -/
inductive ReachableIn (c : Config) (rand : Nat → Int) (e : Endian) (s0 : State) :
    Nat → State → Prop where
  | start : ReachableIn c rand e s0 0 s0
  | next {k : Nat} {s t : State} : ReachableIn c rand e s0 k s → Step c rand e s t →
      ReachableIn c rand e s0 (k + 1) t

/-- The consumer takes `k` steps in a row; `none` when it cannot. -/
def consumerSteps (c : Config) (e : Endian) : Nat → State → Option State
  | 0, s => some s
  | k + 1, s => (stepC c e s).bind (consumerSteps c e k)

/-- The producer takes `k` steps in a row; `none` when it cannot. -/
def producerSteps (c : Config) (rand : Nat → Int) (e : Endian) : Nat → State → Option State
  | 0, s => some s
  | k + 1, s => (stepP c rand e s).bind (producerSteps c rand e k)

/-- The schedule that lets the producer and the consumer step in turn, `k`
times each. -/
def inTurn : Nat → List Bool
  | 0 => []
  | k + 1 => true :: false :: inTurn k

/-- A schedule for two blocks and one cycle, entered when both threads have
passed their first test and the producer its `sem_wait`: the producer writes
block 0, the consumer checks it, the producer writes block 1 and ends, the
consumer checks block 1 and ends. -/
def demoSchedule : List Bool :=
  List.replicate 66 true ++ List.replicate 37 false ++ List.replicate 68 true ++
    List.replicate 40 false

/-- The byte offsets of the region the producer's next step reads or writes. -/
def touchedP (s : State) : List Nat :=
  match s.pcP with
  | PPc.fill => if s.indexP < payloadStop s.blockP then [s.indexP] else []
  | PPc.fillSum => [s.indexP]
  | PPc.store => [2 * trailerSlot s.indexP, 2 * trailerSlot s.indexP + 1]
  | _ => []

/-- The byte offsets of the region the consumer's next step reads. -/
def touchedC (s : State) : List Nat :=
  match s.pcC with
  | CPc.sum => if s.indexC < payloadStop s.blockC then [s.indexC] else []
  | CPc.load => [2 * trailerSlot s.indexC, 2 * trailerSlot s.indexC + 1]
  | _ => []

/-! ## Bytes and the trailer -/

theorem storeByte_same (m : Mem) (i v : Nat) : storeByte m i v i = v % 256 := by
  simp [storeByte]

theorem storeByte_other (m : Mem) (i v j : Nat) (h : j ≠ i) : storeByte m i v j = m j := by
  simp [storeByte, h]

theorem randByte_lt (r : Int) : randByte r < 256 := by
  unfold randByte
  have h := Int.emod_lt_of_pos (Int.tmod r 255) (show (0 : Int) < 256 by decide)
  have h0 := Int.emod_nonneg (Int.tmod r 255) (show (256 : Int) ≠ 0 by decide)
  omega

theorem randByte_of_nonneg (r : Int) (h : 0 ≤ r) :
    randByte r = (r % 255).toNat ∧ randByte r ≤ 254 := by
  unfold randByte
  have h1 : Int.tmod r 255 = r % 255 := Int.tmod_eq_emod h (by decide)
  rw [h1]
  have h2 := Int.emod_lt_of_pos r (show (0 : Int) < 255 by decide)
  have h3 := Int.emod_nonneg r (show (255 : Int) ≠ 0 by decide)
  have h4 : r % 255 % 256 = r % 255 := Int.emod_eq_of_lt h3 (by omega)
  rw [h4]
  exact ⟨rfl, by omega⟩

theorem addU16_lt (a b : Nat) : addU16 a b < 65536 := by
  unfold addU16; omega

theorem loadU16_storeU16 (e : Endian) (m : Mem) (k v : Nat) (hv : v < 65536) :
    loadU16 e (storeU16 e m k v) k = v := by
  cases e <;> simp [loadU16, storeU16, storeByte] <;> omega

theorem storeU16_other (e : Endian) (m : Mem) (k v j : Nat) (h0 : j ≠ 2 * k)
    (h1 : j ≠ 2 * k + 1) : storeU16 e m k v j = m j := by
  cases e <;> simp [storeU16, storeByte, h0, h1]

theorem payloadStart_eq (b : Nat) : payloadStart b = 32 * b := by
  unfold payloadStart BLOCK_SIZE; omega

theorem payloadStop_eq (b : Nat) : payloadStop b = 32 * b + 30 := by
  unfold payloadStop BLOCK_SIZE; omega

theorem trailerSlot_stop (b : Nat) : 2 * trailerSlot (32 * b + 30) = 32 * b + 30 := by
  unfold trailerSlot; omega

/-! ## The payload loops -/

theorem sum_range_front (m : Mem) (start len : Nat) :
    Finset.sum (Finset.range (len + 1)) (fun k => m (start + k)) =
      m start + Finset.sum (Finset.range len) (fun k => m (start + 1 + k)) := by
  rw [Finset.sum_range_succ']
  simp only [Nat.add_zero]
  rw [Nat.add_comm]
  congr 1
  apply Finset.sum_congr rfl
  intro k _
  congr 1
  omega

theorem consumerSum_spec (m : Mem) (stop : Nat) :
    ∀ (n fuel : Nat) (st : SumState), st.index + n = stop → n ≤ fuel →
      (consumerSum m stop fuel st).index = stop ∧
      (consumerSum m stop fuel st).calculated_checksum % 65536 =
        (st.calculated_checksum +
          Finset.sum (Finset.range n) (fun k => m (st.index + k))) % 65536 ∧
      (st.calculated_checksum < 65536 →
        (consumerSum m stop fuel st).calculated_checksum < 65536) := by
  intro n
  induction n with
  | zero =>
    intro fuel st h _
    have hi : ¬ st.index < stop := by omega
    cases fuel <;> simp [consumerSum, hi] <;> omega
  | succ n ih =>
    intro fuel st h hf
    obtain ⟨f, rfl⟩ : ∃ f, fuel = f + 1 := ⟨fuel - 1, by omega⟩
    have hi : st.index < stop := by omega
    have := ih f (sumBody m st) (by simp [sumBody]; omega) (by omega)
    obtain ⟨h1, h2, h3⟩ := this
    simp only [consumerSum, hi, if_true]
    refine ⟨h1, ?_, fun _ => h3 (by simp [sumBody, addU16_lt])⟩
    rw [h2, sum_range_front]
    simp only [sumBody, addU16]
    omega

theorem producerFill_spec (rand : Nat → Int) (stop : Nat) :
    ∀ (n fuel : Nat) (st : FillState), st.index + n = stop → n ≤ fuel →
      (producerFill rand stop fuel st).index = stop ∧
      (producerFill rand stop fuel st).calls = st.calls + n ∧
      (∀ j, (j < st.index ∨ stop ≤ j) →
        (producerFill rand stop fuel st).mem j = st.mem j) ∧
      (∀ k, k < n →
        (producerFill rand stop fuel st).mem (st.index + k) = randByte (rand (st.calls + k))) ∧
      (producerFill rand stop fuel st).checksum % 65536 =
        (st.checksum + Finset.sum (Finset.range n)
          (fun k => (producerFill rand stop fuel st).mem (st.index + k))) % 65536 ∧
      (st.checksum < 65536 → (producerFill rand stop fuel st).checksum < 65536) := by
  intro n
  induction n with
  | zero =>
    intro fuel st h _
    have hi : ¬ st.index < stop := by omega
    cases fuel <;> simp [producerFill, hi] <;> omega
  | succ n ih =>
    intro fuel st h hf
    obtain ⟨f, rfl⟩ : ∃ f, fuel = f + 1 := ⟨fuel - 1, by omega⟩
    have hi : st.index < stop := by omega
    have hidx : (fillBody rand st).index = st.index + 1 := rfl
    have hcalls : (fillBody rand st).calls = st.calls + 1 := rfl
    obtain ⟨h1, h2, h3, h4, h5, h6⟩ :=
      ih f (fillBody rand st) (by rw [hidx]; omega) (by omega)
    simp only [producerFill, hi, if_true]
    have hhead : (producerFill rand stop f (fillBody rand st)).mem st.index =
        randByte (rand st.calls) := by
      rw [h3 st.index (Or.inl (by rw [hidx]; omega))]
      simp only [fillBody, storeByte_same]
      exact Nat.mod_eq_of_lt (randByte_lt _)
    refine ⟨h1, by rw [h2, hcalls]; omega, ?_, ?_, ?_,
      fun _ => h6 (by simp [fillBody, addU16_lt])⟩
    · intro j hj
      rw [h3 j (by rw [hidx]; omega)]
      simp only [fillBody]
      exact storeByte_other _ _ _ _ (by omega)
    · intro k hk
      cases k with
      | zero => simpa using hhead
      | succ k =>
        have := h4 k (by omega)
        rw [hidx, hcalls] at this
        rw [show st.index + (k + 1) = st.index + 1 + k by omega,
          show st.calls + (k + 1) = st.calls + 1 + k by omega]
        exact this
    · rw [h5, sum_range_front, hhead, hidx]
      simp only [fillBody, storeByte_same, addU16]
      have := randByte_lt (rand st.calls)
      rw [Nat.mod_eq_of_lt this]
      omega

theorem consumerLoop_spec (m : Mem) (b : Nat) :
    (consumerLoop m b).index = 32 * b + 30 ∧
    (consumerLoop m b).calculated_checksum =
      (Finset.sum (Finset.range 30) (fun k => m (32 * b + k))) % 65536 := by
  have h := consumerSum_spec m (payloadStop b) 30 BLOCK_SIZE
    { calculated_checksum := 0, index := payloadStart b }
    (by simp [payloadStart_eq, payloadStop_eq]) (by decide)
  obtain ⟨h1, h2, h3⟩ := h
  simp only [payloadStart_eq, payloadStop_eq, Nat.zero_add] at h1 h2 h3
  have h4 := h3 (by decide)
  rw [Nat.mod_eq_of_lt h4] at h2
  unfold consumerLoop
  simp only [payloadStart_eq, payloadStop_eq]
  exact ⟨h1, h2⟩

theorem producerLoop_spec (rand : Nat → Int) (m : Mem) (calls b : Nat) :
    (producerLoop rand m calls b).index = 32 * b + 30 ∧
    (producerLoop rand m calls b).calls = calls + 30 ∧
    (∀ j, (j < 32 * b ∨ 32 * b + 30 ≤ j) → (producerLoop rand m calls b).mem j = m j) ∧
    (∀ k, k < 30 →
      (producerLoop rand m calls b).mem (32 * b + k) = randByte (rand (calls + k))) ∧
    (producerLoop rand m calls b).checksum =
      (Finset.sum (Finset.range 30)
        (fun k => (producerLoop rand m calls b).mem (32 * b + k))) % 65536 := by
  have h := producerFill_spec rand (payloadStop b) 30 BLOCK_SIZE
    { mem := m, checksum := 0, index := payloadStart b, calls := calls }
    (by simp [payloadStart_eq, payloadStop_eq]) (by decide)
  obtain ⟨h1, h2, h3, h4, h5, h6⟩ := h
  simp only [payloadStart_eq, payloadStop_eq, Nat.zero_add] at h1 h2 h3 h4 h5 h6
  have h7 := h6 (by decide)
  rw [Nat.mod_eq_of_lt h7] at h5
  unfold producerLoop
  simp only [payloadStart_eq, payloadStop_eq]
  exact ⟨h1, h2, h3, h4, h5⟩

theorem producerFill_fuel (rand : Nat → Int) (stop : Nat) :
    ∀ (j : Nat) (st : FillState), st.index + j ≤ stop →
      producerFill rand stop j st = producerFill rand (st.index + j) j st := by
  intro j
  induction j with
  | zero => intro st _; rfl
  | succ j ih =>
    intro st h
    have h1 : st.index < stop := by omega
    have h2 : st.index < st.index + (j + 1) := by omega
    have hidx : (fillBody rand st).index = st.index + 1 := rfl
    simp only [producerFill, h1, h2, if_true]
    rw [ih (fillBody rand st) (by rw [hidx]; omega), hidx]
    congr 1
    omega

theorem producerBlock_mem (e : Endian) (rand : Nat → Int) (m : Mem) (calls b : Nat) :
    (producerBlock e rand m calls b).1 =
      storeU16 e (producerLoop rand m calls b).mem (trailerSlot (32 * b + 30))
        (producerLoop rand m calls b).checksum := by
  simp only [producerBlock]
  rw [(producerLoop_spec rand m calls b).1]

theorem producerBlock_payload (e : Endian) (rand : Nat → Int) (m : Mem) (calls b j : Nat)
    (hj : j ≠ 32 * b + 30) (hj1 : j ≠ 32 * b + 31) :
    (producerBlock e rand m calls b).1 j = (producerLoop rand m calls b).mem j := by
  rw [producerBlock_mem]
  have := trailerSlot_stop b
  exact storeU16_other e _ _ _ j (by omega) (by omega)

theorem checksum_lt (m : Mem) (b : Nat) : (consumerLoop m b).calculated_checksum < 65536 := by
  rw [(consumerLoop_spec m b).2]
  exact Nat.mod_lt _ (by decide)

theorem consumerLoop_congr (m m1 : Mem) (b : Nat)
    (h : ∀ k, k < 30 → m1 (32 * b + k) = m (32 * b + k)) :
    consumerLoop m1 b = consumerLoop m b := by
  have h1 := consumerLoop_spec m b
  have h2 := consumerLoop_spec m1 b
  have hs : Finset.sum (Finset.range 30) (fun k => m1 (32 * b + k)) =
      Finset.sum (Finset.range 30) (fun k => m (32 * b + k)) :=
    Finset.sum_congr rfl (fun k hk => h k (Finset.mem_range.mp hk))
  have e1 : (consumerLoop m1 b).index = (consumerLoop m b).index := by rw [h1.1, h2.1]
  have e2 : (consumerLoop m1 b).calculated_checksum =
      (consumerLoop m b).calculated_checksum := by rw [h1.2, h2.2, hs]
  cases hx : consumerLoop m1 b
  cases hy : consumerLoop m b
  simp_all

theorem producer_consumer_agree (e : Endian) (rand : Nat → Int) (m : Mem) (calls b : Nat) :
    (consumerLoop (producerBlock e rand m calls b).1 b).calculated_checksum =
      (producerLoop rand m calls b).checksum ∧
    loadU16 e (producerBlock e rand m calls b).1 (trailerSlot (32 * b + 30)) =
      (producerLoop rand m calls b).checksum := by
  have hp := producerLoop_spec rand m calls b
  constructor
  · rw [consumerLoop_congr (producerLoop rand m calls b).mem _ b
      (fun k hk => producerBlock_payload e rand m calls b _ (by omega) (by omega))]
    rw [(consumerLoop_spec _ b).2]
    exact hp.2.2.2.2.symm
  · rw [producerBlock_mem]
    apply loadU16_storeU16
    rw [hp.2.2.2.2]
    exact Nat.mod_lt _ (by decide)

/-! ## Claims on the sequential reading -/

/-- C3. Trailer round trip: for every block `b`, every region `m` and every
16-bit value `v`, the consumer's load through `(index+1)/2` right after the
producer's store of `v` through the same expression, with `index = 32*b+30` on
both sides, yields `v`; and after the producer's critical section the consumer
reads back, at the index its own loop ends with, the checksum the producer
computed. -/
theorem C3_trailer_round_trip (e : Endian) (m : Mem) (b v : Nat) (hv : v < 65536) :
    loadU16 e (storeU16 e m (trailerSlot (32 * b + 30)) v) (trailerSlot (32 * b + 30)) = v ∧
    (∀ (rand : Nat → Int) (calls : Nat),
      (producerLoop rand m calls b).index = 32 * b + 30 ∧
      (consumerLoop (producerBlock e rand m calls b).1 b).index = 32 * b + 30 ∧
      loadU16 e (producerBlock e rand m calls b).1
          (trailerSlot (consumerLoop (producerBlock e rand m calls b).1 b).index) =
        (producerLoop rand m calls b).checksum) := by
  refine ⟨loadU16_storeU16 e m _ v hv, fun rand calls => ⟨(producerLoop_spec rand m calls b).1,
    (consumerLoop_spec _ b).1, ?_⟩⟩
  rw [(consumerLoop_spec _ b).1]
  exact (producer_consumer_agree e rand m calls b).2

theorem C3_trailer_round_trip_witness :
    (40000 : Nat) < 65536 ∧
    loadU16 Endian.big (storeU16 Endian.big (fun _ => 7) (trailerSlot (32 * 2 + 30)) 40000)
      (trailerSlot (32 * 2 + 30)) = 40000 :=
  ⟨by decide, (C3_trailer_round_trip Endian.big (fun _ => 7) 2 40000 (by decide)).1⟩

/-- C4. Checksum definition: the value the consumer's loop accumulates for
block `b` is the sum of the 30 cells `32*b .. 32*b+29` modulo `2^16`; the value
the producer's loop accumulates is the same sum over the bytes it has just
written; and the consumer's loop, run on the memory the producer leaves (after
the loop, and after the trailer store), returns the producer's value. -/
theorem C4_checksum_definition (e : Endian) (rand : Nat → Int) (m : Mem) (calls b : Nat) :
    (consumerLoop m b).calculated_checksum =
      (Finset.sum (Finset.range 30) (fun k => m (32 * b + k))) % 65536 ∧
    (producerLoop rand m calls b).checksum =
      (Finset.sum (Finset.range 30)
        (fun k => (producerLoop rand m calls b).mem (32 * b + k))) % 65536 ∧
    (consumerLoop (producerLoop rand m calls b).mem b).calculated_checksum =
      (producerLoop rand m calls b).checksum ∧
    (consumerLoop (producerBlock e rand m calls b).1 b).calculated_checksum =
      (producerLoop rand m calls b).checksum := by
  refine ⟨(consumerLoop_spec m b).2, (producerLoop_spec rand m calls b).2.2.2.2, ?_,
    (producer_consumer_agree e rand m calls b).1⟩
  rw [(consumerLoop_spec _ b).2]
  exact (producerLoop_spec rand m calls b).2.2.2.2.symm

/-- C6. Block layout and frame: the producer's payload loop for block `b` ends
with `index = 32*b+30`, sets the bytes `32*b .. 32*b+29` (to the successive
`rand()%255` values) and no other; the trailer store through `(index+1)/2`
sets the bytes `32*b+30` and `32*b+31` (to the two halves of the value, in the
machine's order) and no other; so the whole critical section leaves every byte
outside block `b` as it was, and the trailer store changes no payload byte. -/
theorem C6_block_layout_frame (e : Endian) (rand : Nat → Int) (m : Mem) (calls b : Nat) :
    (producerLoop rand m calls b).index = 32 * b + 30 ∧
    (∀ j, (j < 32 * b ∨ 32 * b + 30 ≤ j) → (producerLoop rand m calls b).mem j = m j) ∧
    (∀ k, k < 30 →
      (producerLoop rand m calls b).mem (32 * b + k) = randByte (rand (calls + k))) ∧
    (∀ (m1 : Mem) (v j : Nat), j ≠ 32 * b + 30 → j ≠ 32 * b + 31 →
      storeU16 e m1 (trailerSlot (32 * b + 30)) v j = m1 j) ∧
    (∀ (m1 : Mem) (v : Nat),
      (e = Endian.little →
        storeU16 e m1 (trailerSlot (32 * b + 30)) v (32 * b + 30) = v % 256 ∧
        storeU16 e m1 (trailerSlot (32 * b + 30)) v (32 * b + 31) = v / 256 % 256) ∧
      (e = Endian.big →
        storeU16 e m1 (trailerSlot (32 * b + 30)) v (32 * b + 30) = v / 256 % 256 ∧
        storeU16 e m1 (trailerSlot (32 * b + 30)) v (32 * b + 31) = v % 256)) ∧
    (∀ k, k < 30 → (producerBlock e rand m calls b).1 (32 * b + k) =
      (producerLoop rand m calls b).mem (32 * b + k)) ∧
    (∀ j, (j < 32 * b ∨ 32 * (b + 1) ≤ j) →
      (producerBlock e rand m calls b).1 j = m j) := by
  have hp := producerLoop_spec rand m calls b
  have hslot : trailerSlot (32 * b + 30) = 16 * b + 15 := by unfold trailerSlot; omega
  refine ⟨hp.1, hp.2.2.1, hp.2.2.2.1, ?_, ?_, ?_, ?_⟩
  · intro m1 v j h0 h1
    exact storeU16_other e m1 _ v j (by omega) (by omega)
  · intro m1 v
    rw [hslot]
    have e0 : 32 * b + 30 = 2 * (16 * b + 15) := by omega
    have e1 : 32 * b + 31 = 2 * (16 * b + 15) + 1 := by omega
    rw [e0, e1]
    constructor <;> intro he <;> subst he <;> simp [storeU16, storeByte]
  · intro k hk
    exact producerBlock_payload e rand m calls b _ (by omega) (by omega)
  · intro j hj
    rw [producerBlock_payload e rand m calls b j (by omega) (by omega)]
    exact hp.2.2.1 j (by omega)

theorem C6_block_layout_frame_witness :
    (producerBlock Endian.little (fun k => (k : Int) + 1000) (fun _ => 9) 0 1).1 5 = 9 ∧
    (producerBlock Endian.little (fun k => (k : Int) + 1000) (fun _ => 9) 0 1).1 64 = 9 :=
  ⟨(C6_block_layout_frame Endian.little (fun k => (k : Int) + 1000) (fun _ => 9) 0 1).2.2.2.2.2.2
      5 (Or.inl (by decide)),
   (C6_block_layout_frame Endian.little (fun k => (k : Int) + 1000) (fun _ => 9) 0 1).2.2.2.2.2.2
      64 (Or.inr (by decide))⟩


theorem sum_le_of_le (f : Nat → Nat) (n c : Nat) (h : ∀ k, k < n → f k ≤ c) :
    Finset.sum (Finset.range n) f ≤ c * n := by
  induction n with
  | zero => simp
  | succ n ih =>
    have h1 := ih (fun k hk => h k (by omega))
    have h2 := h n (by omega)
    rw [Finset.sum_range_succ, Nat.mul_succ]
    exact Nat.add_le_add h1 h2

theorem producerFill_passes (rand : Nat → Int) (m : Mem) (calls b j : Nat) (hj : j ≤ 30)
    (hr : ∀ k, 0 ≤ rand k) :
    (producerFill rand (payloadStop b) j
      { mem := m, checksum := 0, index := payloadStart b, calls := calls }).checksum =
      Finset.sum (Finset.range j) (fun k => (rand (calls + k) % 255).toNat) ∧
    Finset.sum (Finset.range j) (fun k => (rand (calls + k) % 255).toNat) ≤ 254 * j := by
  have hfuel := producerFill_fuel rand (payloadStop b) j
    { mem := m, checksum := 0, index := payloadStart b, calls := calls }
    (by simp [payloadStart_eq, payloadStop_eq]; omega)
  rw [hfuel]
  obtain ⟨-, -, -, h4, h5, h6⟩ := producerFill_spec rand (payloadStart b + j) j j
    { mem := m, checksum := 0, index := payloadStart b, calls := calls } rfl (Nat.le_refl _)
  simp only [Nat.zero_add] at h4 h5 h6
  have hsum : Finset.sum (Finset.range j) (fun k =>
      (producerFill rand (payloadStart b + j) j
        { mem := m, checksum := 0, index := payloadStart b, calls := calls }).mem
          (payloadStart b + k)) =
      Finset.sum (Finset.range j) (fun k => (rand (calls + k) % 255).toNat) := by
    apply Finset.sum_congr rfl
    intro k hk
    rw [h4 k (Finset.mem_range.mp hk)]
    exact (randByte_of_nonneg _ (hr _)).1
  have hle : Finset.sum (Finset.range j) (fun k => (rand (calls + k) % 255).toNat) ≤ 254 * j := by
    apply sum_le_of_le
    intro k _
    have := randByte_of_nonneg _ (hr (calls + k))
    omega
  rw [hsum] at h5
  have h7 := h6 (by decide)
  rw [Nat.mod_eq_of_lt h7, Nat.mod_eq_of_lt (by omega)] at h5
  exact ⟨h5, hle⟩

/-- C10. No wraparound on produced blocks: when `rand()` returns non-negative
values, each payload byte the producer stores is `rand()%255`, at most 254;
after each pass of the payload loop (`j` passes, `j ≤ 30`) the accumulator
holds the exact sum of the bytes stored so far, at most `254*j`; the checksum
at the end of the loop, and the trailer the consumer would read back, is the
exact sum of the 30 payload bytes, at most 7620, below `2^16`. -/
theorem C10_no_wraparound (e : Endian) (rand : Nat → Int) (m : Mem) (calls b : Nat)
    (hr : ∀ k, 0 ≤ rand k) :
    (∀ k, k < 30 →
      (producerLoop rand m calls b).mem (32 * b + k) = (rand (calls + k) % 255).toNat ∧
      (producerLoop rand m calls b).mem (32 * b + k) ≤ 254) ∧
    (∀ j, j ≤ 30 →
      (producerFill rand (payloadStop b) j
        { mem := m, checksum := 0, index := payloadStart b, calls := calls }).checksum =
        Finset.sum (Finset.range j) (fun k => (rand (calls + k) % 255).toNat) ∧
      Finset.sum (Finset.range j) (fun k => (rand (calls + k) % 255).toNat) ≤ 254 * j) ∧
    (producerLoop rand m calls b).checksum =
      Finset.sum (Finset.range 30) (fun k => (producerLoop rand m calls b).mem (32 * b + k)) ∧
    (producerLoop rand m calls b).checksum ≤ 7620 ∧
    loadU16 e (producerBlock e rand m calls b).1 (trailerSlot (32 * b + 30)) =
      Finset.sum (Finset.range 30) (fun k => (producerBlock e rand m calls b).1 (32 * b + k)) := by
  have hp := producerLoop_spec rand m calls b
  have hbytes : ∀ k, k < 30 →
      (producerLoop rand m calls b).mem (32 * b + k) = (rand (calls + k) % 255).toNat ∧
      (producerLoop rand m calls b).mem (32 * b + k) ≤ 254 := by
    intro k hk
    rw [hp.2.2.2.1 k hk]
    exact randByte_of_nonneg _ (hr _)
  have hle : Finset.sum (Finset.range 30)
      (fun k => (producerLoop rand m calls b).mem (32 * b + k)) ≤ 254 * 30 :=
    sum_le_of_le _ 30 254 (fun k hk => (hbytes k hk).2)
  have hcs : (producerLoop rand m calls b).checksum =
      Finset.sum (Finset.range 30) (fun k => (producerLoop rand m calls b).mem (32 * b + k)) := by
    rw [hp.2.2.2.2]
    exact Nat.mod_eq_of_lt (by omega)
  refine ⟨hbytes, fun j hj => producerFill_passes rand m calls b j hj hr, hcs, by omega, ?_⟩
  rw [(producer_consumer_agree e rand m calls b).2, hcs]
  apply Finset.sum_congr rfl
  intro k hk
  have := Finset.mem_range.mp hk
  exact (producerBlock_payload e rand m calls b _ (by omega) (by omega)).symm

theorem C10_no_wraparound_witness :
    (∀ k : Nat, (0 : Int) ≤ (k : Int) * 1000 + 254) ∧
    (producerLoop (fun k => (k : Int) * 1000 + 254) (fun _ => 255) 0 3).checksum ≤ 7620 :=
  ⟨fun k => by positivity,
    (C10_no_wraparound Endian.little (fun k => (k : Int) * 1000 + 254) (fun _ => 255) 0 3
      (fun k => by positivity)).2.2.2.1⟩

theorem mainArgs_ok (a1 a2 : Int) (h1 : 0 < a1) (h2 : (32 : Int) ∣ a1) (h3 : a1 ≤ 64000)
    (h4 : 0 < a2) :
    mainArgs 3 a1 a2 =
      Except.ok { memsize := a1.toNat, blocks := a1.toNat / 32, n_times := a2.toNat } := by
  have ht : Int.tmod a1 32 = a1 % 32 := Int.tmod_eq_emod (by omega) (by decide)
  have hm : Int.tmod a1 32 = 0 := by rw [ht]; omega
  have n1 : ¬ a1 < 1 := by omega
  have n2 : ¬ a2 < 1 := by omega
  have n3 : ¬ a1 > ((MAX_MEM_SIZE : Nat) : Int) := by simp [MAX_MEM_SIZE]; omega
  simp [mainArgs, n1, n2, hm, n3, BLOCK_SIZE]

theorem mainArgs_error (a1 a2 : Int)
    (h : ¬ (0 < a1 ∧ (32 : Int) ∣ a1 ∧ a1 ≤ 64000 ∧ 0 < a2)) :
    mainArgs 3 a1 a2 = Except.error (-1) := by
  unfold mainArgs
  simp only [ne_eq, not_true_eq_false, if_false]
  split
  · rfl
  split
  · rfl
  split
  · rfl
  split
  · rfl
  · exfalso
    rename_i n1 n2 n3 n4
    have ht : Int.tmod a1 32 = a1 % 32 := Int.tmod_eq_emod (by omega) (by decide)
    rw [ht] at n3
    simp [MAX_MEM_SIZE] at n4
    apply h
    refine ⟨by omega, by omega, by omega, by omega⟩

/-- C5. Configuration rejection: with both arguments present, the validation
in `main` lets the pair `(a1, a2)` through, and sets the globals from it,
exactly when `a1` is positive, a multiple of 32 and at most 64000 and `a2` is
positive; every other pair returns -1 before line 73, where the globals,
the region and the threads are set up. So 33, 70000 and a repeat count of 0
are rejected and 64000 is let through; whatever is let through satisfies
`Accepted`. -/
theorem C5_config_rejection (a1 a2 : Int) :
    ((0 < a1 ∧ (32 : Int) ∣ a1 ∧ a1 ≤ 64000 ∧ 0 < a2) →
      mainArgs 3 a1 a2 =
        Except.ok { memsize := a1.toNat, blocks := a1.toNat / 32, n_times := a2.toNat }) ∧
    (¬ (0 < a1 ∧ (32 : Int) ∣ a1 ∧ a1 ≤ 64000 ∧ 0 < a2) →
      mainArgs 3 a1 a2 = Except.error (-1)) ∧
    (∀ c, mainArgs 3 a1 a2 = Except.ok c → Accepted c) ∧
    mainArgs 3 33 a2 = Except.error (-1) ∧
    mainArgs 3 70000 a2 = Except.error (-1) ∧
    mainArgs 3 a1 0 = Except.error (-1) ∧
    (0 < a2 → mainArgs 3 64000 a2 =
      Except.ok { memsize := 64000, blocks := 2000, n_times := a2.toNat }) := by
  refine ⟨fun ⟨h1, h2, h3, h4⟩ => mainArgs_ok a1 a2 h1 h2 h3 h4, mainArgs_error a1 a2, ?_,
    mainArgs_error 33 a2 (by omega), mainArgs_error 70000 a2 (by omega),
    mainArgs_error a1 0 (by omega), fun h => mainArgs_ok 64000 a2 (by decide) (by decide)
      (by decide) h⟩
  intro c hc
  by_cases h : 0 < a1 ∧ (32 : Int) ∣ a1 ∧ a1 ≤ 64000 ∧ 0 < a2
  · obtain ⟨h1, h2, h3, h4⟩ := h
    rw [mainArgs_ok a1 a2 h1 h2 h3 h4] at hc
    injection hc with hc
    subst hc
    simp only [Accepted, MAX_MEM_SIZE, BLOCK_SIZE]
    refine ⟨by omega, by omega, by omega, trivial, by omega⟩
  · rw [mainArgs_error a1 a2 h] at hc
    cases hc

theorem C5_config_rejection_witness :
    ((0 : Int) < 64 ∧ (32 : Int) ∣ 64 ∧ (64 : Int) ≤ 64000 ∧ (0 : Int) < 1) ∧
    mainArgs 3 64 1 = Except.ok { memsize := 64, blocks := 2, n_times := 1 } :=
  ⟨by decide, (C5_config_rejection 64 1).1 (by decide)⟩

/-! ## The counting invariant -/

theorem invA_init (c : Config) (m0 : Mem) : InvA c (initState m0) := by
  constructor <;>
    simp [initState, inBody, taken, posted, critP, critC, locP, locC, written, checked]

theorem invA_stepP (c : Config) (rand : Nat → Int) (e : Endian) (s t : State)
    (h : InvA c s) (hs : stepP c rand e s = some t) : InvA c t := by
  obtain ⟨h1, h2, h3, h4, h5, h6, h7, h8⟩ := h
  unfold stepP at hs
  split at hs
  · cases hs
  · split at hs <;> rename_i hpc <;> rw [hpc] at h1 h2 h3 h4 h5 h7
    all_goals (try split at hs)
    all_goals try cases hs
    all_goals simp only [inBody, posted, critP, locP, written, Bool.true_or, Bool.false_or,
      if_true, if_false, false_or, true_or,] at h1 h2 h3 h4 h5 h7
    all_goals constructor
    all_goals dsimp only
    all_goals (first | exact h6 | exact h8 | skip)
    all_goals try simp only [inBody, posted, critP, locP, written, Bool.true_or, Bool.false_or,
      if_true, if_false, false_or, true_or, or_true, or_false, payloadStart_eq, payloadStop_eq,
      Nat.add_mul, Nat.one_mul]
    all_goals (first | exact h3 | (have hq := payloadStop_eq s.blockP; omega) | simp_all)

theorem invA_stepC (c : Config) (e : Endian) (s t : State)
    (h : InvA c s) (hs : stepC c e s = some t) : InvA c t := by
  obtain ⟨h1, h2, h3, h4, h5, h6, h7, h8⟩ := h
  unfold stepC at hs
  split at hs
  · cases hs
  · split at hs <;> rename_i hpc <;> rw [hpc] at h2 h3 h4 h6 h8
    all_goals (try split at hs)
    all_goals try cases hs
    all_goals simp only [taken, critC, locC, checked, Bool.or_true, Bool.or_false,
      if_true, if_false, false_or, true_or, or_true, or_false] at h2 h3 h4 h6 h8
    all_goals constructor
    all_goals dsimp only
    all_goals try simp only [hpc]
    all_goals (first | exact h5 | exact h7 | exact h1 | skip)
    all_goals try simp only [taken, critC, locC, checked, Bool.or_true, Bool.or_false,
      if_true, if_false, false_or, true_or, or_true, or_false, payloadStart_eq, payloadStop_eq,
      Nat.add_mul, Nat.one_mul]
    all_goals (first | exact h3 | (have hq := payloadStop_eq s.blockC; omega) | simp_all)

/-! ## The region and the accumulators -/

theorem partialSum_start (m : Mem) (a : Nat) : partialSum m a a 0 := by
  simp [partialSum]

theorem partialSum_step (m : Mem) (a i acc : Nat) (h : partialSum m a i acc) (hi : a ≤ i) :
    partialSum m a (i + 1) (addU16 acc (m i)) := by
  unfold partialSum at *
  have e1 : i + 1 - a = (i - a) + 1 := by omega
  have e2 : a + (i - a) = i := by omega
  rw [e1, Finset.sum_range_succ, e2, h]
  unfold addU16
  omega

theorem partialSum_congr (m m1 : Mem) (a i acc : Nat) (h : partialSum m a i acc)
    (hm : ∀ j, a ≤ j → j < i → m1 j = m j) : partialSum m1 a i acc := by
  unfold partialSum at *
  rw [h]
  congr 1
  apply Finset.sum_congr rfl
  intro k hk
  have hk2 : k < i - a := Finset.mem_range.mp hk
  exact (hm (a + k) (by omega) (by omega)).symm

theorem partialSum_full (m : Mem) (b acc : Nat) (h : partialSum m (32 * b) (32 * b + 30) acc) :
    acc = (consumerLoop m b).calculated_checksum := by
  unfold partialSum at h
  rw [(consumerLoop_spec m b).2, h]
  congr 3
  omega

theorem loadU16_congr (e : Endian) (m m1 : Mem) (k : Nat) (h0 : m1 (2 * k) = m (2 * k))
    (h1 : m1 (2 * k + 1) = m (2 * k + 1)) : loadU16 e m1 k = loadU16 e m k := by
  cases e <;> simp [loadU16, h0, h1]

theorem Good_congr (e : Endian) (m m1 : Mem) (i : Nat) (h : Good e m i)
    (hm : ∀ j, 32 * i ≤ j → j < 32 * i + 32 → m1 j = m j) : Good e m1 i := by
  unfold Good at *
  have hslot : trailerSlot (32 * i + 30) = 16 * i + 15 := by unfold trailerSlot; omega
  rw [consumerLoop_congr m m1 i (fun k hk => hm _ (by omega) (by omega)), ← h, hslot]
  exact loadU16_congr e m m1 _ (hm _ (by omega) (by omega)) (hm _ (by omega) (by omega))

theorem Good_store (e : Endian) (m : Mem) (b cs : Nat)
    (h : cs = (consumerLoop m b).calculated_checksum) :
    Good e (storeU16 e m (trailerSlot (32 * b + 30)) cs) b := by
  unfold Good
  have hslot := trailerSlot_stop b
  rw [loadU16_storeU16 e m _ cs (by rw [h]; exact checksum_lt m b)]
  rw [consumerLoop_congr m (storeU16 e m (trailerSlot (32 * b + 30)) cs) b
    (fun k hk => storeU16_other e m _ _ _ (by omega) (by omega))]
  exact h

theorem order_core (B nP nC blockC post inB sem0 sem1 : Nat)
    (h0 : sem0 + nP + inB = 1 + nC) (h1 : sem1 + nC * B + (blockC + 1) = nP * B + post)
    (hpB : post ≤ B) (hp0 : inB = 0 → post = 0) (hin : inB ≤ 1) :
    (inB = 1 ∧ nP = nC ∧ blockC < post) ∨ (inB = 0 ∧ nP = nC + 1) := by
  rcases Nat.lt_trichotomy nP nC with h | h | h
  · have := Nat.mul_le_mul_right B (show nP + 1 ≤ nC from h)
    rw [Nat.add_mul, Nat.one_mul] at this
    omega
  · subst h
    left
    refine ⟨?_, rfl, by omega⟩
    by_contra hc
    have := hp0 (by omega)
    omega
  · right
    omega

theorem posted_le (c : Config) (pc : PPc) (n b i : Nat) (h : locP c pc n b i) :
    posted pc b ≤ c.blocks := by
  cases pc <;> simp only [locP, posted] at * <;> omega

theorem posted_zero (pc : PPc) (b : Nat) (h : inBody pc = 0) : posted pc b = 0 := by
  cases pc <;> simp_all [inBody, posted]

theorem inBody_le (pc : PPc) : inBody pc ≤ 1 := by
  cases pc <;> simp [inBody]

theorem posted_le_written (pc : PPc) (b : Nat) : posted pc b ≤ written pc b := by
  cases pc <;> simp [posted, written]

theorem written_eq_goodCount (c : Config) (pc : PPc) (n b : Nat) (h : inBody pc = 1) :
    written pc b = goodCount c pc n b := by
  cases pc <;> simp_all [inBody, written, goodCount]

theorem goodCount_between (c : Config) (pc : PPc) (n b : Nat) (h : inBody pc = 0)
    (hn : 0 < n) : goodCount c pc n b = c.blocks := by
  cases pc <;> simp_all [inBody, goodCount]

theorem taken_reading (pc : CPc) (b : Nat) (h : reading pc = true) : taken pc b = b + 1 := by
  cases pc <;> simp_all [reading, taken]

theorem locC_reading (c : Config) (pc : CPc) (n b i : Nat) (h : reading pc = true)
    (hl : locC c pc n b i) : n < c.n_times ∧ b < c.blocks := by
  cases pc <;> simp_all [reading, locC]

/-- While the consumer is at a block, the producer is past it, is not writing
it, and the block carries its checksum. -/
theorem reading_order (c : Config) (e : Endian) (s : State) (hA : InvA c s)
    (hr : reading s.pcC = true) :
    producerPast s s.nC s.blockC ∧
    (inBody s.pcP = 1 → s.nP = s.nC ∧ s.blockC < posted s.pcP s.blockP) ∧
    (inBody s.pcP = 0 → s.nP = s.nC + 1) ∧
    (InvM c e s → Good e s.shared_memory s.blockC) := by
  have h1 := hA.sem1
  rw [taken_reading _ _ hr] at h1
  have h2 := locC_reading c _ _ _ _ hr hA.locC
  have h3 := order_core c.blocks s.nP s.nC s.blockC (posted s.pcP s.blockP) (inBody s.pcP)
    s.sem0 s.sem1 hA.sem0 h1 (posted_le c _ _ _ _ hA.locP) (posted_zero _ _) (inBody_le _)
  have h4 := posted_le_written s.pcP s.blockP
  refine ⟨?_, ?_, ?_, ?_⟩
  · unfold producerPast
    rcases h3 with ⟨a, b, d⟩ | ⟨a, b⟩
    · right; exact ⟨b, a, by omega⟩
    · left; omega
  · intro hb
    rcases h3 with ⟨a, b, d⟩ | ⟨a, b⟩
    · exact ⟨b, d⟩
    · omega
  · intro hb
    rcases h3 with ⟨a, b, d⟩ | ⟨a, b⟩
    · omega
    · exact b
  · intro hM
    apply hM.good
    rcases h3 with ⟨a, b, d⟩ | ⟨a, b⟩
    · rw [← written_eq_goodCount c _ s.nP _ a]; omega
    · rw [goodCount_between c _ _ _ a (by omega)]; exact h2.2

theorem invM_stepC (c : Config) (e : Endian) (s t : State)
    (hA : InvA c s) (hM : InvM c e s) (hs : stepC c e s = some t) : InvM c e t := by
  have hgood := fun hr => (reading_order c e s hA hr).2.2.2 hM
  obtain ⟨h1, h2, h3, h4⟩ := hM
  have hl := hA.locC
  unfold stepC at hs
  split at hs
  · cases hs
  · split at hs <;> rename_i hpc <;> rw [hpc] at h3 hl hgood
    all_goals (try split at hs)
    all_goals try cases hs
    all_goals simp only [accC, locC, reading] at h3 hl hgood
    all_goals constructor
    all_goals dsimp only
    all_goals try simp only [hpc]
    all_goals (first | exact h1 | exact h2 | exact h4 | skip)
    all_goals try simp only [accC, payloadStart_eq]
    all_goals (first | exact partialSum_start _ _ | skip)
    all_goals (first
      | exact h3
      | (exfalso
         have hg := hgood trivial
         unfold Good at hg
         rw [← h3.1, ← h3.2] at hg
         exact absurd hg (by assumption))
      | exact partialSum_step _ _ _ _ h3 hl.2.2.1
      | (rw [hl.2.2]; exact ⟨h3, rfl⟩)
      | (have hq := payloadStop_eq s.blockC
         have hi : s.indexC = 32 * s.blockC + 30 := by omega
         rw [hi] at h3
         exact partialSum_full _ _ _ h3))

theorem accC_mem (e : Endian) (m m1 : Mem) (pc : CPc) (b i a g : Nat) (h : critC pc = false)
    (ha : accC e m pc b i a g) : accC e m1 pc b i a g := by
  cases pc <;> simp_all [critC, accC]

theorem invM_stepP (c : Config) (rand : Nat → Int) (e : Endian) (s t : State)
    (hA : InvA c s) (hM : InvM c e s) (hs : stepP c rand e s = some t) : InvM c e t := by
  obtain ⟨h1, h2, h3, h4⟩ := hM
  have hl := hA.locP
  have hx := hA.excl
  unfold stepP at hs
  split at hs
  · cases hs
  · split at hs <;> rename_i hpc <;> rw [hpc] at h2 h4 hl hx
    all_goals (try split at hs)
    all_goals try cases hs
    all_goals simp only [accP, locP, goodCount, critP, false_or, true_or] at h2 h4 hl hx
    all_goals try simp at hx
    all_goals constructor
    all_goals dsimp only
    all_goals (first | exact h1 | exact h3 | exact h4 | exact accC_mem _ _ _ _ _ _ _ _ hx h3 | skip)
    all_goals try simp only [accP, goodCount, payloadStart_eq]
    all_goals (first | exact partialSum_start _ _ | trivial | skip)
    all_goals (first
      | exact partialSum_step _ _ _ _ h2 hl.2.2.1
      | exact partialSum_congr _ _ _ _ _ h2 (fun j _ hj => storeByte_other _ _ _ _ (by omega))
      | (have hq := payloadStop_eq s.blockP
         have hi : s.indexP = 32 * s.blockP + 30 := by omega
         rw [hi] at h2
         exact partialSum_full _ _ _ h2)
      | (intro i hi
         exact absurd hi (Nat.not_lt_zero _))
      | (intro i hi
         simp only [Nat.succ_pos, if_true] at hi
         exact h4 i (by omega))
      | (intro i hi
         exact Good_congr e _ _ i (h4 i hi)
           (fun j hj1 hj2 => storeByte_other _ _ _ _ (by omega)))
      | (intro i hi
         have hslot := trailerSlot_stop s.blockP
         rw [hl.2.2]
         rcases Nat.lt_or_ge i s.blockP with hlt | hge
         · exact Good_congr e _ _ i (h4 i hlt)
             (fun j hj1 hj2 => storeU16_other e _ _ _ _ (by omega) (by omega))
         · have hib : i = s.blockP := by omega
           rw [hib]
           exact Good_store e _ _ _ h2))

/-! ## Every reachable state satisfies both invariants -/

theorem invM_init (c : Config) (e : Endian) (m0 : Mem) : InvM c e (initState m0) := by
  constructor <;> simp [initState, accP, accC, goodCount]

theorem reachable_inv (c : Config) (rand : Nat → Int) (e : Endian) (m0 : Mem) (s : State)
    (h : Reachable c rand e (initState m0) s) : InvA c s ∧ InvM c e s := by
  induction h with
  | start => exact ⟨invA_init c m0, invM_init c e m0⟩
  | next _ hstep ih =>
    rcases hstep with hp | hc
    · exact ⟨invA_stepP c rand e _ _ ih.1 hp, invM_stepP c rand e _ _ ih.1 ih.2 hp⟩
    · exact ⟨invA_stepC c e _ _ ih.1 hc, invM_stepC c e _ _ ih.1 ih.2 hc⟩

theorem reachable_exec (c : Config) (rand : Nat → Int) (e : Endian) (s0 : State) :
    ∀ (sched : List Bool) (s : State), Reachable c rand e s0 s →
      Reachable c rand e s0 (exec c rand e sched s) := by
  intro sched
  induction sched with
  | nil => intro s h; exact h
  | cons b rest ih =>
    intro s h
    cases b
    · simp only [exec]
      cases hc : stepC c e s with
      | none => exact ih s h
      | some t => exact ih t (Reachable.next h (Or.inr hc))
    · simp only [exec]
      cases hp : stepP c rand e s with
      | none => exact ih s h
      | some t => exact ih t (Reachable.next h (Or.inl hp))

/-! ## Termination measure -/

theorem cycles_split (N n K : Nat) (h : n < N) : (N - n) * K = (N - (n + 1)) * K + K := by
  have : N - n = (N - (n + 1)) + 1 := by omega
  rw [this, Nat.add_mul, Nat.one_mul]

theorem remP_stepP (c : Config) (rand : Nat → Int) (e : Endian) (s t : State)
    (h : InvA c s) (hs : stepP c rand e s = some t) :
    remP c t < remP c s ∧ remC c t = remC c s ∧ t.exited = s.exited := by
  have hl := h.locP
  have hK := cycles_split c.n_times s.nP (66 * c.blocks + 3)
  unfold stepP at hs
  split at hs
  · cases hs
  · split at hs <;> rename_i hpc <;> rw [hpc] at hl
    all_goals (try split at hs)
    all_goals try cases hs
    all_goals simp only [locP] at hl
    all_goals refine ⟨?_, rfl, rfl⟩
    all_goals simp only [remP, hpc, payloadStart_eq]
    all_goals (have hq := payloadStop_eq s.blockP; omega)

theorem remC_stepC (c : Config) (e : Endian) (s t : State)
    (h : InvA c s) (hs : stepC c e s = some t) :
    (t.exited = none → remC c t < remC c s) ∧ remP c t = remP c s ∧ 0 < remC c s := by
  have hl := h.locC
  have hK := cycles_split c.n_times s.nC (37 * c.blocks + 3)
  unfold stepC at hs
  split at hs
  · cases hs
  · rename_i hex
    split at hs <;> rename_i hpc <;> rw [hpc] at hl
    all_goals (try split at hs)
    all_goals try cases hs
    all_goals simp only [locC] at hl
    all_goals refine ⟨?_, rfl, ?_⟩
    all_goals simp only [remC, hpc, payloadStart_eq]
    all_goals (first
      | (have hq := payloadStop_eq s.blockC; omega)
      | (intro hx; cases hx))

theorem remaining_step (c : Config) (rand : Nat → Int) (e : Endian) (s t : State)
    (h : InvA c s) (hs : Step c rand e s t) : remaining c t < remaining c s := by
  have hex : s.exited = none := by
    rcases hs with hp | hc
    · unfold stepP at hp
      split at hp
      · cases hp
      · rename_i hx; simpa using hx
    · unfold stepC at hc
      split at hc
      · cases hc
      · rename_i hx; simpa using hx
  unfold remaining
  rw [hex]
  simp only [Option.isSome_none, Bool.false_eq_true, if_false]
  rcases hs with hp | hc
  · obtain ⟨h1, h2, h3⟩ := remP_stepP c rand e s t h hp
    rw [h3, hex]
    simp only [Option.isSome_none, Bool.false_eq_true, if_false]
    omega
  · obtain ⟨h1, h2, h3⟩ := remC_stepC c e s t h hc
    split
    · omega
    · rename_i hx
      have := h1 (by simpa using hx)
      omega

/-! ## No deadlock -/

theorem blockedP (c : Config) (rand : Nat → Int) (e : Endian) (s : State)
    (hex : s.exited = none) (h : stepP c rand e s = none) :
    (s.pcP = PPc.semWait ∧ s.sem0 = 0) ∨ (s.pcP = PPc.lock ∧ s.mutex = true) ∨
      s.pcP = PPc.done := by
  unfold stepP at h
  rw [hex] at h
  simp only [Option.isSome_none, Bool.false_eq_true, if_false] at h
  split at h <;> rename_i hpc
  all_goals (try split at h)
  all_goals (try cases h)
  all_goals simp_all

theorem blockedC (c : Config) (e : Endian) (s : State)
    (hex : s.exited = none) (h : stepC c e s = none) :
    (s.pcC = CPc.semWait ∧ s.sem1 = 0) ∨ (s.pcC = CPc.lock ∧ s.mutex = true) ∨
      s.pcC = CPc.done := by
  unfold stepC at h
  rw [hex] at h
  simp only [Option.isSome_none, Bool.false_eq_true, if_false] at h
  split at h <;> rename_i hpc
  all_goals (try split at h)
  all_goals (try cases h)
  all_goals simp_all

theorem progress (c : Config) (rand : Nat → Int) (e : Endian) (s : State)
    (hA : InvA c s) (hex : s.exited = none) (hnf : ¬ Finished s) :
    ∃ t, Step c rand e s t := by
  cases hp : stepP c rand e s with
  | some t => exact ⟨t, Or.inl hp⟩
  | none =>
    cases hc : stepC c e s with
    | some t => exact ⟨t, Or.inr hc⟩
    | none =>
      exfalso
      obtain ⟨h1, h2, h3, h4, h5, h6, h7, h8⟩ := hA
      have bp := blockedP c rand e s hex hp
      have bc := blockedC c e s hex hc
      unfold Finished at hnf
      rcases bp with ⟨a, b⟩ | ⟨a, b⟩ | a <;> rcases bc with ⟨a1, b1⟩ | ⟨a1, b1⟩ | a1
      all_goals rw [a] at h1 h2 h3 h5
      all_goals rw [a1] at h2 h3 h6
      all_goals simp only [inBody, posted, taken, critP, critC, locP, locC, Bool.or_false,
        Bool.or_true, Bool.false_or] at h1 h2 h3 h5 h6
      all_goals (first
        | exact hnf ⟨a, a1⟩
        | (rw [h3] at b; cases b)
        | (rw [h3] at b1; cases b1)
        | (have hm : s.nP = s.nC + 1 := by omega
           rw [hm, Nat.add_mul, Nat.one_mul] at h2
           omega))

/-! ## The log -/

theorem precedes_nil (a b : Event) : Precedes a b [] := by
  intro newer older h
  cases newer <;> cases h

theorem notAfter_nil (a b : Event) : NotAfter a b [] := by
  intro newer older h
  cases newer <;> cases h

theorem precedes_cons (a b ev : Event) (log : List Event) (h : Precedes a b log)
    (hnew : ev = b → a ∈ log) : Precedes a b (ev :: log) := by
  intro newer older hd
  cases newer with
  | nil =>
    simp only [List.nil_append, List.cons.injEq] at hd
    rw [← hd.2]
    exact hnew hd.1
  | cons x xs =>
    simp only [List.cons_append, List.cons.injEq] at hd
    exact h xs older hd.2

theorem notAfter_cons (a b ev : Event) (log : List Event) (h : NotAfter a b log)
    (hnew : ev = a → b ∉ log) : NotAfter a b (ev :: log) := by
  intro newer older hd
  cases newer with
  | nil => simp
  | cons x xs =>
    simp only [List.cons_append, List.cons.injEq] at hd
    intro hmem
    rcases List.mem_cons.mp hmem with hx | hx
    · apply hnew (hd.1.trans hx.symm)
      rw [hd.2]
      simp
    · exact h xs older hd.2 hx

theorem stepP_log (c : Config) (rand : Nat → Int) (e : Endian) (s t : State)
    (hs : stepP c rand e s = some t) :
    t.log = s.log ∨
    (s.pcP = PPc.semWait ∧ 0 < s.sem0 ∧ t.log = Event.cycleEntered s.nP :: s.log) ∨
    (s.pcP = PPc.lock ∧ t.log = Event.writeBegin s.nP s.blockP :: s.log) ∨
    (s.pcP = PPc.store ∧ t.log = Event.writeEnd s.nP s.blockP :: s.log) := by
  unfold stepP at hs
  split at hs
  · cases hs
  · split at hs <;> rename_i hpc
    all_goals (try split at hs)
    all_goals try cases hs
    all_goals simp_all

theorem stepC_log (c : Config) (e : Endian) (s t : State)
    (hs : stepC c e s = some t) :
    t.log = s.log ∨
    (s.pcC = CPc.lock ∧ t.log = Event.readBegin s.nC s.blockC :: s.log) ∨
    (s.pcC = CPc.cmp ∧ t.log = Event.readEnd s.nC s.blockC :: s.log) ∨
    (s.pcC = CPc.post ∧ t.log = Event.cyclePosted s.nC :: s.log) := by
  unfold stepC at hs
  split at hs
  · cases hs
  · split at hs <;> rename_i hpc
    all_goals (try split at hs)
    all_goals try cases hs
    all_goals simp_all

theorem stepP_consumer (c : Config) (rand : Nat → Int) (e : Endian) (s t : State)
    (hs : stepP c rand e s = some t) :
    t.pcC = s.pcC ∧ t.nC = s.nC ∧ t.blockC = s.blockC := by
  unfold stepP at hs
  split at hs
  · cases hs
  · split at hs
    all_goals (try split at hs)
    all_goals try cases hs
    all_goals exact ⟨rfl, rfl, rfl⟩

theorem stepC_producer (c : Config) (e : Endian) (s t : State)
    (hs : stepC c e s = some t) :
    t.pcP = s.pcP ∧ t.nP = s.nP ∧ t.blockP = s.blockP := by
  unfold stepC at hs
  split at hs
  · cases hs
  · split at hs
    all_goals (try split at hs)
    all_goals try cases hs
    all_goals exact ⟨rfl, rfl, rfl⟩

theorem producerPast_stepP (c : Config) (rand : Nat → Int) (e : Endian) (s t : State)
    (hA : InvA c s) (hs : stepP c rand e s = some t) (n i : Nat) :
    (producerPast s n i → producerPast t n i) ∧
    (producerPast t n i → i < c.blocks →
      producerPast s n i ∨ (s.pcP = PPc.store ∧ s.nP = n ∧ s.blockP = i)) := by
  have hl := hA.locP
  unfold producerPast
  unfold stepP at hs
  split at hs
  · cases hs
  · split at hs <;> rename_i hpc <;> rw [hpc] at hl ⊢
    all_goals (try split at hs)
    all_goals try cases hs
    all_goals simp only [locP] at hl
    all_goals dsimp only
    all_goals simp only [inBody, written, hpc, reduceCtorEq, false_and, true_and, or_false,
      and_false, and_true, Nat.not_lt_zero, OfNat.ofNat_ne_one, one_ne_zero, zero_ne_one]
    all_goals refine ⟨fun hp => ?_, fun hp hi => ?_⟩
    all_goals omega

theorem consumerPast_stepC (c : Config) (e : Endian) (s t : State)
    (hA : InvA c s) (hs : stepC c e s = some t) (k b : Nat) :
    (consumerPast s k b → consumerPast t k b) ∧
    (consumerPast t k b → b < c.blocks →
      consumerPast s k b ∨
        (s.pcC = CPc.cmp ∧ s.nC = k ∧ s.blockC = b ∧
          t.log = Event.readEnd s.nC s.blockC :: s.log)) := by
  have hl := hA.locC
  unfold consumerPast
  unfold stepC at hs
  split at hs
  · cases hs
  · split at hs <;> rename_i hpc <;> rw [hpc] at hl ⊢
    all_goals (try split at hs)
    all_goals try cases hs
    all_goals simp only [locC] at hl
    all_goals dsimp only
    all_goals simp only [checked, hpc, reduceCtorEq, false_and, true_and, or_false,
      and_false, and_true, Nat.not_lt_zero, List.cons.injEq]
    all_goals refine ⟨fun hp => ?_, fun hp hi => ?_⟩
    all_goals omega

theorem invT_init (m0 : Mem) : InvT (initState m0) := by
  constructor <;> simp [initState, critP, critC, inBody]

theorem invT_stepP (c : Config) (rand : Nat → Int) (e : Endian) (s t : State)
    (hT : InvT s) (hs : stepP c rand e s = some t) : InvT t := by
  obtain ⟨h0, h1, h2⟩ := hT
  unfold stepP at hs
  split at hs
  · cases hs
  · split at hs <;> rename_i hpc <;> rw [hpc] at h0 h1
    all_goals (try split at hs)
    all_goals try cases hs
    all_goals simp only [critP, inBody, reduceCtorEq, false_implies, true_implies,
      zero_ne_one] at h0 h1
    all_goals constructor
    all_goals dsimp only
    all_goals try simp only [critP, inBody, reduceCtorEq, false_implies, true_implies,
      List.mem_cons, true_or, hpc, zero_ne_one]
    all_goals (first
      | exact h0
      | exact h1
      | exact h2
      | exact Or.inr h0
      | exact Or.inr h1
      | (intro hc; exact Or.inr (h2 hc)))

theorem invT_stepC (c : Config) (e : Endian) (s t : State)
    (hT : InvT s) (hs : stepC c e s = some t) : InvT t := by
  obtain ⟨h0, h1, h2⟩ := hT
  unfold stepC at hs
  split at hs
  · cases hs
  · split at hs <;> rename_i hpc <;> rw [hpc] at h2
    all_goals (try split at hs)
    all_goals try cases hs
    all_goals simp only [critC, reduceCtorEq, false_implies, true_implies] at h2
    all_goals constructor
    all_goals dsimp only
    all_goals try simp only [critC, reduceCtorEq, false_implies, true_implies, List.mem_cons,
      true_or, hpc]
    all_goals (first
      | exact h0
      | exact h1
      | exact h2
      | exact Or.inr h2
      | (intro hc; exact Or.inr (h0 hc))
      | (intro hc; exact Or.inr (h1 hc)))

theorem reachable_invT (c : Config) (rand : Nat → Int) (e : Endian) (m0 : Mem) (s : State)
    (h : Reachable c rand e (initState m0) s) : InvT s := by
  induction h with
  | start => exact invT_init m0
  | next _ hstep ih =>
    rcases hstep with hp | hc
    · exact invT_stepP c rand e _ _ ih hp
    · exact invT_stepC c e _ _ ih hc


theorem invL_init (c : Config) (m0 : Mem) : InvL c (initState m0) := by
  constructor
  · intro n i hp _
    simp [producerPast, initState, inBody] at hp
  · intro n i hm
    simp [initState] at hm
  · intro k b hp _
    simp [consumerPast, initState, checked] at hp
  · intro k hk
    simp [initState] at hk
  · intro n i; exact precedes_nil _ _
  · intro n i; exact ⟨notAfter_nil _ _, notAfter_nil _ _⟩
  · intro k; exact precedes_nil _ _
  · intro k b _; exact precedes_nil _ _
  · intro k b b1 _; exact precedes_nil _ _
  · intro k b1; exact precedes_nil _ _
  · intro n b; exact precedes_nil _ _

theorem invL_stepP (c : Config) (rand : Nat → Int) (e : Endian) (s t : State)
    (hA : InvA c s) (hT : InvT s) (hL : InvL c s) (hs : stepP c rand e s = some t) :
    InvL c t := by
  have hlog := stepP_log c rand e s t hs
  have hcons := stepP_consumer c rand e s t hs
  have hpast := producerPast_stepP c rand e s t hA hs
  have h0 := hA.sem0
  have hsub : ∀ ev, ev ∈ s.log → ev ∈ t.log := by
    intro ev hev
    rcases hlog with h | ⟨_, _, h⟩ | ⟨_, h⟩ | ⟨_, h⟩ <;> rw [h] <;> simp [hev]
  have hcp : ∀ k b, consumerPast t k b → consumerPast s k b := by
    intro k b h
    unfold consumerPast at *
    rw [hcons.1, hcons.2.1, hcons.2.2] at h
    exact h
  have hnotStore : ∀ n i, producerPast s n i →
      ¬ (s.pcP = PPc.store ∧ s.nP = n ∧ s.blockP = i) := by
    intro n i hp ⟨hpc, hn, hb⟩
    unfold producerPast at hp
    rw [hpc] at hp
    simp only [inBody, written] at hp
    omega
  have hnotLock : ∀ n i, producerPast s n i →
      ¬ (s.pcP = PPc.lock ∧ s.nP = n ∧ s.blockP = i) := by
    intro n i hp ⟨hpc, hn, hb⟩
    unfold producerPast at hp
    rw [hpc] at hp
    simp only [inBody, written] at hp
    omega
  constructor
  · intro n i hp hi
    rcases (hpast n i).2 hp hi with hold | ⟨hpc, hn, hb⟩
    · exact hsub _ (hL.wrote n i hold hi)
    · rcases hlog with h | ⟨h1, _, _⟩ | ⟨h1, _⟩ | ⟨_, h⟩
      · exfalso
        have hp0 : ¬ producerPast s n i := by
          unfold producerPast
          rw [hpc]
          simp only [inBody, written]
          omega
        have hs2 := hs
        unfold stepP at hs2
        split at hs2
        · cases hs2
        · simp only [hpc] at hs2
          cases hs2
          exact absurd h (by simp)
      · rw [hpc] at h1; cases h1
      · rw [hpc] at h1; cases h1
      · rw [h, hn, hb]; simp
  · intro n i hm
    have hm2 : Event.readBegin n i ∈ s.log := by
      rcases hlog with h | ⟨_, _, h⟩ | ⟨_, h⟩ | ⟨_, h⟩ <;> rw [h] at hm
      · exact hm
      all_goals (simp at hm; exact hm)
    exact (hpast n i).1 (hL.readPast n i hm2)
  · intro k b hp hb
    exact hsub _ (hL.checkedAll k b (hcp k b hp) hb)
  · intro k hk
    rw [hcons.2.1] at hk
    exact hsub _ (hL.postedAll k hk)
  · intro n i
    rcases hlog with h | ⟨_, _, h⟩ | ⟨_, h⟩ | ⟨_, h⟩ <;> rw [h]
    · exact hL.writeRead n i
    all_goals exact precedes_cons _ _ _ _ (hL.writeRead n i) (fun heq => by cases heq)
  · intro n i
    rcases hlog with h | ⟨_, _, h⟩ | ⟨hpc, h⟩ | ⟨hpc, h⟩ <;> rw [h]
    · exact hL.noRewrite n i
    · exact ⟨notAfter_cons _ _ _ _ (hL.noRewrite n i).1 (fun heq => by cases heq),
        notAfter_cons _ _ _ _ (hL.noRewrite n i).2 (fun heq => by cases heq)⟩
    · refine ⟨notAfter_cons _ _ _ _ (hL.noRewrite n i).1 ?_,
        notAfter_cons _ _ _ _ (hL.noRewrite n i).2 (fun heq => by cases heq)⟩
      intro heq hmem
      injection heq with hn hb
      exact hnotLock n i (hL.readPast n i hmem) ⟨hpc, hn, hb⟩
    · refine ⟨notAfter_cons _ _ _ _ (hL.noRewrite n i).1 (fun heq => by cases heq),
        notAfter_cons _ _ _ _ (hL.noRewrite n i).2 ?_⟩
      intro heq hmem
      injection heq with hn hb
      exact hnotStore n i (hL.readPast n i hmem) ⟨hpc, hn, hb⟩
  · intro k
    rcases hlog with h | ⟨hpc, hpos, h⟩ | ⟨_, h⟩ | ⟨_, h⟩ <;> rw [h]
    · exact hL.postEnter k
    · apply precedes_cons _ _ _ _ (hL.postEnter k)
      intro heq
      injection heq with hn
      rw [hpc] at h0
      simp only [inBody] at h0
      exact hL.postedAll k (by omega)
    all_goals exact precedes_cons _ _ _ _ (hL.postEnter k) (fun heq => by cases heq)
  · intro k b hb
    rcases hlog with h | ⟨hpc, hpos, h⟩ | ⟨_, h⟩ | ⟨_, h⟩ <;> rw [h]
    · exact hL.checkEnter k b hb
    · apply precedes_cons _ _ _ _ (hL.checkEnter k b hb)
      intro heq
      injection heq with hn
      rw [hpc] at h0
      simp only [inBody] at h0
      exact hL.checkedAll k b (Or.inl (by omega)) hb
    all_goals exact precedes_cons _ _ _ _ (hL.checkEnter k b hb) (fun heq => by cases heq)
  · intro k b b1 hb
    rcases hlog with h | ⟨_, _, h⟩ | ⟨hpc, h⟩ | ⟨_, h⟩ <;> rw [h]
    · exact hL.checkWrite k b b1 hb
    · exact precedes_cons _ _ _ _ (hL.checkWrite k b b1 hb) (fun heq => by cases heq)
    · apply precedes_cons _ _ _ _ (hL.checkWrite k b b1 hb)
      intro heq
      injection heq with hn _
      rw [hpc] at h0
      simp only [inBody] at h0
      exact hL.checkedAll k b (Or.inl (by omega)) hb
    · exact precedes_cons _ _ _ _ (hL.checkWrite k b b1 hb) (fun heq => by cases heq)
  · intro k b1
    rcases hlog with h | ⟨_, _, h⟩ | ⟨hpc, h⟩ | ⟨_, h⟩ <;> rw [h]
    · exact hL.postWrite k b1
    · exact precedes_cons _ _ _ _ (hL.postWrite k b1) (fun heq => by cases heq)
    · apply precedes_cons _ _ _ _ (hL.postWrite k b1)
      intro heq
      injection heq with hn _
      rw [hpc] at h0
      simp only [inBody] at h0
      exact hL.postedAll k (by omega)
    · exact precedes_cons _ _ _ _ (hL.postWrite k b1) (fun heq => by cases heq)
  · intro n b
    rcases hlog with h | ⟨_, _, h⟩ | ⟨hpc, h⟩ | ⟨_, h⟩ <;> rw [h]
    · exact hL.enterWrite n b
    · exact precedes_cons _ _ _ _ (hL.enterWrite n b) (fun heq => by cases heq)
    · apply precedes_cons _ _ _ _ (hL.enterWrite n b)
      intro heq
      injection heq with hn _
      rw [← hn]
      exact hT.entered (by rw [hpc]; rfl)
    · exact precedes_cons _ _ _ _ (hL.enterWrite n b) (fun heq => by cases heq)

theorem invL_stepC (c : Config) (e : Endian) (s t : State)
    (hA : InvA c s) (hL : InvL c s) (hs : stepC c e s = some t) : InvL c t := by
  have hlog := stepC_log c e s t hs
  have hprod := stepC_producer c e s t hs
  have hpast := consumerPast_stepC c e s t hA hs
  have hsub : ∀ ev, ev ∈ s.log → ev ∈ t.log := by
    intro ev hev
    rcases hlog with h | ⟨_, h⟩ | ⟨_, h⟩ | ⟨_, h⟩ <;> rw [h] <;> simp [hev]
  have hpp : ∀ n i, producerPast t n i ↔ producerPast s n i := by
    intro n i
    unfold producerPast
    rw [hprod.1, hprod.2.1, hprod.2.2]
  have hread : s.pcC = CPc.lock → producerPast s s.nC s.blockC ∧ s.blockC < c.blocks := by
    intro hpc
    have hr : reading s.pcC = true := by rw [hpc]; rfl
    exact ⟨(reading_order c e s hA hr).1, (locC_reading c _ _ _ _ hr hA.locC).2⟩
  have hnC : s.pcC = CPc.post → t.nC = s.nC + 1 := by
    intro hpc
    have hs2 := hs
    unfold stepC at hs2
    split at hs2
    · cases hs2
    · simp only [hpc] at hs2
      cases hs2
      rfl
  have hnC2 : s.pcC ≠ CPc.post → t.nC = s.nC := by
    intro hpc
    have hs2 := hs
    unfold stepC at hs2
    split at hs2
    · cases hs2
    · split at hs2
      all_goals (try split at hs2)
      all_goals try cases hs2
      all_goals (first | rfl | exact absurd (by assumption) hpc)
  constructor
  · intro n i hp hi
    exact hsub _ (hL.wrote n i ((hpp n i).mp hp) hi)
  · intro n i hm
    rw [hpp]
    rcases hlog with h | ⟨hpc, h⟩ | ⟨_, h⟩ | ⟨_, h⟩ <;> rw [h] at hm
    · exact hL.readPast n i hm
    · simp only [List.mem_cons, Event.readBegin.injEq] at hm
      rcases hm with ⟨hn, hb⟩ | hm
      · rw [hn, hb]; exact (hread hpc).1
      · exact hL.readPast n i hm
    all_goals (simp at hm; exact hL.readPast n i hm)
  · intro k b hp hb
    rcases (hpast k b).2 hp hb with hold | ⟨_, hn, hbb, h⟩
    · exact hsub _ (hL.checkedAll k b hold hb)
    · rw [h, hn, hbb]; simp
  · intro k hk
    by_cases hpc : s.pcC = CPc.post
    · rw [hnC hpc] at hk
      rcases hlog with h | ⟨h1, _⟩ | ⟨h1, _⟩ | ⟨_, h⟩
      · exfalso
        have hs2 := hs
        unfold stepC at hs2
        split at hs2
        · cases hs2
        · simp only [hpc] at hs2
          cases hs2
          exact absurd h (by simp)
      · rw [hpc] at h1; cases h1
      · rw [hpc] at h1; cases h1
      · rw [h]
        rcases Nat.lt_or_ge k s.nC with hlt | hge
        · exact List.mem_cons_of_mem _ (hL.postedAll k hlt)
        · have : k = s.nC := by omega
          rw [this]; simp
    · rw [hnC2 hpc] at hk
      exact hsub _ (hL.postedAll k hk)
  · intro n i
    rcases hlog with h | ⟨hpc, h⟩ | ⟨_, h⟩ | ⟨_, h⟩ <;> rw [h]
    · exact hL.writeRead n i
    · apply precedes_cons _ _ _ _ (hL.writeRead n i)
      intro heq
      injection heq with hn hb
      rw [← hn, ← hb]
      exact hL.wrote _ _ (hread hpc).1 (hread hpc).2
    all_goals exact precedes_cons _ _ _ _ (hL.writeRead n i) (fun heq => by cases heq)
  · intro n i
    rcases hlog with h | ⟨_, h⟩ | ⟨_, h⟩ | ⟨_, h⟩ <;> rw [h]
    · exact hL.noRewrite n i
    all_goals exact ⟨notAfter_cons _ _ _ _ (hL.noRewrite n i).1 (fun heq => by cases heq),
      notAfter_cons _ _ _ _ (hL.noRewrite n i).2 (fun heq => by cases heq)⟩
  · intro k
    rcases hlog with h | ⟨_, h⟩ | ⟨_, h⟩ | ⟨_, h⟩ <;> rw [h]
    · exact hL.postEnter k
    all_goals exact precedes_cons _ _ _ _ (hL.postEnter k) (fun heq => by cases heq)
  · intro k b hb
    rcases hlog with h | ⟨_, h⟩ | ⟨_, h⟩ | ⟨_, h⟩ <;> rw [h]
    · exact hL.checkEnter k b hb
    all_goals exact precedes_cons _ _ _ _ (hL.checkEnter k b hb) (fun heq => by cases heq)
  · intro k b b1 hb
    rcases hlog with h | ⟨_, h⟩ | ⟨_, h⟩ | ⟨_, h⟩ <;> rw [h]
    · exact hL.checkWrite k b b1 hb
    all_goals exact precedes_cons _ _ _ _ (hL.checkWrite k b b1 hb) (fun heq => by cases heq)
  · intro k b1
    rcases hlog with h | ⟨_, h⟩ | ⟨_, h⟩ | ⟨_, h⟩ <;> rw [h]
    · exact hL.postWrite k b1
    all_goals exact precedes_cons _ _ _ _ (hL.postWrite k b1) (fun heq => by cases heq)
  · intro n b
    rcases hlog with h | ⟨_, h⟩ | ⟨_, h⟩ | ⟨_, h⟩ <;> rw [h]
    · exact hL.enterWrite n b
    all_goals exact precedes_cons _ _ _ _ (hL.enterWrite n b) (fun heq => by cases heq)

theorem reachable_invL (c : Config) (rand : Nat → Int) (e : Endian) (m0 : Mem) (s : State)
    (h : Reachable c rand e (initState m0) s) : InvL c s := by
  induction h with
  | start => exact invL_init c m0
  | next hprev hstep ih =>
    have hA := (reachable_inv c rand e m0 _ hprev).1
    have hT := reachable_invT c rand e m0 _ hprev
    rcases hstep with hp | hc
    · exact invL_stepP c rand e _ _ hA hT ih hp
    · exact invL_stepC c e _ _ hA ih hc

/-! ## Every run ends, and ends with both threads done -/

theorem reachable_of_in (c : Config) (rand : Nat → Int) (e : Endian) (s0 s : State) (k : Nat)
    (h : ReachableIn c rand e s0 k s) : Reachable c rand e s0 s := by
  induction h with
  | start => exact Reachable.start
  | next _ hstep ih => exact Reachable.next ih hstep

theorem run_length (c : Config) (rand : Nat → Int) (e : Endian) (m0 : Mem) (s : State)
    (k : Nat) (h : ReachableIn c rand e (initState m0) k s) :
    k + remaining c s ≤ remaining c (initState m0) := by
  induction h with
  | start => omega
  | next hprev hstep ih =>
    have hA := (reachable_inv c rand e m0 _ (reachable_of_in c rand e _ _ _ hprev)).1
    have := remaining_step c rand e _ _ hA hstep
    omega

theorem remaining_init (c : Config) (m0 : Mem) :
    remaining c (initState m0) =
      c.n_times * (66 * c.blocks + 3) + 1 + (c.n_times * (37 * c.blocks + 3) + 1) := by
  simp [remaining, remP, remC, initState]

theorem reachable_head (c : Config) (rand : Nat → Int) (e : Endian) (s s1 t : State)
    (hstep : Step c rand e s s1) (h : Reachable c rand e s1 t) : Reachable c rand e s t := by
  induction h with
  | start => exact Reachable.next Reachable.start hstep
  | next _ hst ih => exact Reachable.next ih hst

theorem reachable_trans (c : Config) (rand : Nat → Int) (e : Endian) (s0 s t : State)
    (h0 : Reachable c rand e s0 s) (h : Reachable c rand e s t) : Reachable c rand e s0 t := by
  induction h with
  | start => exact h0
  | next _ hst ih => exact Reachable.next ih hst

theorem reaches_finished (c : Config) (rand : Nat → Int) (e : Endian) (m0 : Mem) :
    ∀ (n : Nat) (s : State), Reachable c rand e (initState m0) s → remaining c s ≤ n →
      ∃ t, Reachable c rand e s t ∧ Finished t := by
  intro n
  induction n with
  | zero =>
    intro s hr hn
    by_cases hf : Finished s
    · exact ⟨s, Reachable.start, hf⟩
    · obtain ⟨hA, hM⟩ := reachable_inv c rand e m0 s hr
      obtain ⟨t, ht⟩ := progress c rand e s hA hM.exited hf
      have := remaining_step c rand e s t hA ht
      omega
  | succ n ih =>
    intro s hr hn
    by_cases hf : Finished s
    · exact ⟨s, Reachable.start, hf⟩
    · obtain ⟨hA, hM⟩ := reachable_inv c rand e m0 s hr
      obtain ⟨s1, hs1⟩ := progress c rand e s hA hM.exited hf
      have hlt := remaining_step c rand e s s1 hA hs1
      obtain ⟨t, ht, hft⟩ := ih s1 (Reachable.next hr hs1) (by omega)
      exact ⟨t, reachable_head c rand e s s1 t hs1 ht, hft⟩

/-! ## One corrupted payload byte -/

theorem sum_storeByte (m : Mem) (a v : Nat) :
    ∀ (n off : Nat), off < n →
      Finset.sum (Finset.range n) (fun k => storeByte m (a + off) v (a + k)) + m (a + off) =
        Finset.sum (Finset.range n) (fun k => m (a + k)) + v % 256 := by
  intro n
  induction n with
  | zero => intro off h; omega
  | succ n ih =>
    intro off h
    rw [Finset.sum_range_succ, Finset.sum_range_succ]
    rcases Nat.lt_or_ge off n with hlt | hge
    · have h1 := ih off hlt
      have h2 : storeByte m (a + off) v (a + n) = m (a + n) :=
        storeByte_other _ _ _ _ (by omega)
      rw [h2]
      omega
    · have hoff : off = n := by omega
      subst hoff
      have h1 : Finset.sum (Finset.range off) (fun k => storeByte m (a + off) v (a + k)) =
          Finset.sum (Finset.range off) (fun k => m (a + k)) := by
        apply Finset.sum_congr rfl
        intro k hk
        have hk2 : k < off := Finset.mem_range.mp hk
        exact storeByte_other _ _ _ _ (by omega)
      rw [h1, storeByte_same]
      omega

theorem corrupted_checksum (e : Endian) (rand : Nat → Int) (m : Mem)
    (calls i off v : Nat) (hoff : off < 30) (hv : v < 256)
    (hne : v ≠ (producerBlock e rand m calls i).1 (32 * i + off)) :
    loadU16 e (storeByte (producerBlock e rand m calls i).1 (32 * i + off) v)
        (trailerSlot (32 * i + 30)) = (producerLoop rand m calls i).checksum ∧
    (producerLoop rand m calls i).checksum ≠
      (consumerLoop (storeByte (producerBlock e rand m calls i).1 (32 * i + off) v)
        i).calculated_checksum := by
  have hp := producerLoop_spec rand m calls i
  have hagree := producer_consumer_agree e rand m calls i
  have hslot := trailerSlot_stop i
  constructor
  · rw [← hagree.2]
    exact loadU16_congr e _ _ _ (storeByte_other _ _ _ _ (by omega))
      (storeByte_other _ _ _ _ (by omega))
  · have hbytes : ∀ k, k < 30 → (producerBlock e rand m calls i).1 (32 * i + k) ≤ 255 := by
      intro k hk
      rw [producerBlock_payload e rand m calls i _ (by omega) (by omega), hp.2.2.2.1 k hk]
      have := randByte_lt (rand (calls + k))
      omega
    have hle := sum_le_of_le (fun k => (producerBlock e rand m calls i).1 (32 * i + k)) 30 255
      hbytes
    have hsum := sum_storeByte (producerBlock e rand m calls i).1 (32 * i) v 30 off hoff
    have hold := hbytes off hoff
    rw [← hagree.1, (consumerLoop_spec _ i).2, (consumerLoop_spec _ i).2]
    rw [Nat.mod_eq_of_lt hv] at hsum
    omega

theorem consumerSteps_add (c : Config) (e : Endian) :
    ∀ (a b : Nat) (s : State),
      consumerSteps c e (a + b) s = (consumerSteps c e a s).bind (consumerSteps c e b) := by
  intro a
  induction a with
  | zero => intro b s; simp [consumerSteps]
  | succ a ih =>
    intro b s
    rw [Nat.succ_add]
    simp only [consumerSteps]
    cases stepC c e s with
    | none => rfl
    | some t => simpa using ih b t

theorem consumerSteps_sum (c : Config) (e : Endian) :
    ∀ (k fuel : Nat) (s : State), s.exited = none → s.pcC = CPc.sum →
      s.indexC + k = payloadStop s.blockC → k ≤ fuel →
      consumerSteps c e k s = some { s with
        calculated_checksum := (consumerSum s.shared_memory (payloadStop s.blockC) fuel
          { calculated_checksum := s.calculated_checksum, index := s.indexC }).calculated_checksum
        indexC := payloadStop s.blockC } := by
  intro k
  induction k with
  | zero =>
    intro fuel s _ _ hi _
    have hn : ¬ s.indexC < payloadStop s.blockC := by omega
    have hi2 : payloadStop s.blockC = s.indexC := by omega
    cases fuel <;> simp [consumerSteps, consumerSum, hn, hi2]
  | succ k ih =>
    intro fuel s hex hpc hi hf
    obtain ⟨f, rfl⟩ : ∃ f, fuel = f + 1 := ⟨fuel - 1, by omega⟩
    have hlt : s.indexC < payloadStop s.blockC := by omega
    have hstep : stepC c e s = some { s with
        calculated_checksum := addU16 s.calculated_checksum (s.shared_memory s.indexC)
        indexC := s.indexC + 1 } := by
      simp [stepC, hex, hpc, hlt]
    have ih1 := ih f { s with
        calculated_checksum := addU16 s.calculated_checksum (s.shared_memory s.indexC)
        indexC := s.indexC + 1 }
      hex hpc (by simp only; omega) (by omega)
    simp only [consumerSteps, hstep, Option.some_bind]
    rw [ih1]
    simp [consumerSum, hlt, sumBody]

theorem consumerSteps_check (c : Config) (e : Endian) (s : State) (hex : s.exited = none)
    (hpc : s.pcC = CPc.lock) (hmx : s.mutex = false) :
    consumerSteps c e 33 s = some { s with
      mutex := true
      calculated_checksum := (consumerLoop s.shared_memory s.blockC).calculated_checksum
      indexC := payloadStop s.blockC
      given_checksum := loadU16 e s.shared_memory (trailerSlot (payloadStop s.blockC))
      pcC := CPc.cmp
      log := Event.readBegin s.nC s.blockC :: s.log } := by
  have h1 : stepC c e s = some { s with
      mutex := true, calculated_checksum := 0, indexC := payloadStart s.blockC
      pcC := CPc.sum, log := Event.readBegin s.nC s.blockC :: s.log } := by
    simp [stepC, hex, hpc, hmx]
  have h2 := consumerSteps_sum c e 30 BLOCK_SIZE
    { s with mutex := true, calculated_checksum := 0, indexC := payloadStart s.blockC
             pcC := CPc.sum, log := Event.readBegin s.nC s.blockC :: s.log }
    hex rfl (by simp [payloadStart_eq, payloadStop_eq]) (by decide)
  have e1 := consumerSteps_add c e 1 32 s
  have e2 : consumerSteps c e 1 s = some { s with
      mutex := true, calculated_checksum := 0, indexC := payloadStart s.blockC
      pcC := CPc.sum, log := Event.readBegin s.nC s.blockC :: s.log } := by
    simp [consumerSteps, h1]
  have e3 := consumerSteps_add c e 30 2
    { s with mutex := true, calculated_checksum := 0, indexC := payloadStart s.blockC
             pcC := CPc.sum, log := Event.readBegin s.nC s.blockC :: s.log }
  rw [e2, Option.some_bind, e3, h2, Option.some_bind] at e1
  rw [show (33 : Nat) = 1 + 32 from rfl, e1]
  simp [consumerSteps, stepC, hex, consumerLoop, payloadStop_eq]

theorem exited_stuck (c : Config) (rand : Nat → Int) (e : Endian) (t : State) (r : Report)
    (h : t.exited = some r) : stepP c rand e t = none ∧ stepC c e t = none := by
  unfold stepP stepC
  simp [h]

/-- The consumer's check of a block of which one payload byte was changed
after the producer wrote it: sequentially, and as 34 steps of the consumer. -/
theorem corrupted_block_check (c : Config) (e : Endian) (rand : Nat → Int) (m : Mem)
    (calls i n off v : Nat) (hoff : off < 30) (hv : v < 256)
    (hne : v ≠ (producerBlock e rand m calls i).1 (32 * i + off))
    (s : State)
    (hmem : s.shared_memory = storeByte (producerBlock e rand m calls i).1 (32 * i + off) v)
    (hex : s.exited = none) (hpc : s.pcC = CPc.lock) (hmx : s.mutex = false)
    (hb : s.blockC = i) (hn : s.nC = n) :
    loadU16 e s.shared_memory (trailerSlot (32 * i + 30)) =
      (producerLoop rand m calls i).checksum ∧
    loadU16 e s.shared_memory (trailerSlot (32 * i + 30)) ≠
      (consumerLoop s.shared_memory i).calculated_checksum ∧
    consumerBlock e s.shared_memory i n = Except.error
      { block := i, iteration := n
        given_checksum := loadU16 e s.shared_memory (trailerSlot (32 * i + 30))
        calculated_checksum := (consumerLoop s.shared_memory i).calculated_checksum } ∧
    ∃ t, consumerSteps c e 34 s = some t ∧
      t.exited = some
        { block := i, iteration := n
          given_checksum := loadU16 e s.shared_memory (trailerSlot (32 * i + 30))
          calculated_checksum := (consumerLoop s.shared_memory i).calculated_checksum } ∧
      t.consumed = s.consumed ∧
      (∀ (r : Nat → Int) (u : State), ¬ Step c r e t u) := by
  obtain ⟨h1, h2⟩ := corrupted_checksum e rand m calls i off v hoff hv hne
  rw [← hmem] at h1 h2
  have hne2 : loadU16 e s.shared_memory (trailerSlot (32 * i + 30)) ≠
      (consumerLoop s.shared_memory i).calculated_checksum := by rw [h1]; exact h2
  refine ⟨h1, hne2, ?_, ?_⟩
  · simp only [consumerBlock]
    rw [(consumerLoop_spec s.shared_memory i).1]
    simp [hne2]
  · have e1 := consumerSteps_add c e 33 1 s
    rw [consumerSteps_check c e s hex hpc hmx, Option.some_bind] at e1
    rw [show (34 : Nat) = 33 + 1 from rfl, e1]
    subst hb hn
    rw [payloadStop_eq]
    refine ⟨{ s with
      mutex := true
      calculated_checksum := (consumerLoop s.shared_memory s.blockC).calculated_checksum
      indexC := 32 * s.blockC + 30
      given_checksum := loadU16 e s.shared_memory (trailerSlot (32 * s.blockC + 30))
      pcC := CPc.cmp
      log := Event.readBegin s.nC s.blockC :: s.log
      exited := some (Report.mk s.blockC s.nC
        (loadU16 e s.shared_memory (trailerSlot (32 * s.blockC + 30)))
        (consumerLoop s.shared_memory s.blockC).calculated_checksum) }, ?_, rfl, rfl, ?_⟩
    · simp [consumerSteps, stepC, hex, hne2]
    · intro r u hu
      have hst := exited_stuck c r e { s with
        mutex := true
        calculated_checksum := (consumerLoop s.shared_memory s.blockC).calculated_checksum
        indexC := 32 * s.blockC + 30
        given_checksum := loadU16 e s.shared_memory (trailerSlot (32 * s.blockC + 30))
        pcC := CPc.cmp
        log := Event.readBegin s.nC s.blockC :: s.log
        exited := some (Report.mk s.blockC s.nC
          (loadU16 e s.shared_memory (trailerSlot (32 * s.blockC + 30)))
          (consumerLoop s.shared_memory s.blockC).calculated_checksum) } _ rfl
      rcases hu with hu | hu
      · rw [hst.1] at hu; cases hu
      · rw [hst.2] at hu; cases hu

/-! ## Every access stays inside the region -/

theorem touched_in_bounds (c : Config) (hc : Accepted c) (s : State) (hA : InvA c s) :
    (∀ a, a ∈ touchedP s → a < c.memsize) ∧
    (∀ a, a ∈ touchedC s → a < c.memsize) := by
  obtain ⟨h1, h2, h3, h4, h5⟩ := hc
  have hB : BLOCK_SIZE = 32 := rfl
  rw [hB] at h4
  have hlp := hA.locP
  have hlc := hA.locC
  constructor
  · intro a ha
    unfold touchedP at ha
    have hq := payloadStop_eq s.blockP
    cases hpc : s.pcP <;> rw [hpc] at ha hlp <;> simp only [locP] at hlp <;>
      simp only [List.mem_cons, List.mem_singleton, List.not_mem_nil, or_false] at ha
    · split at ha
      · simp only [List.mem_singleton] at ha; omega
      · simp at ha
    · omega
    · have hslot : trailerSlot (32 * s.blockP + 30) = 16 * s.blockP + 15 := by
        unfold trailerSlot; omega
      rw [hlp.2.2, hslot] at ha
      omega
  · intro a ha
    unfold touchedC at ha
    have hq := payloadStop_eq s.blockC
    cases hpc : s.pcC <;> rw [hpc] at ha hlc <;> simp only [locC] at hlc <;>
      simp only [List.mem_cons, List.mem_singleton, List.not_mem_nil, or_false] at ha
    · split at ha
      · simp only [List.mem_singleton] at ha; omega
      · simp at ha
    · have hslot : trailerSlot (32 * s.blockC + 30) = 16 * s.blockC + 15 := by
        unfold trailerSlot; omega
      rw [hlc.2.2, hslot] at ha
      omega

theorem stepP_frame (c : Config) (rand : Nat → Int) (e : Endian) (s t : State)
    (hs : stepP c rand e s = some t) (j : Nat) (hj : j ∉ touchedP s) :
    t.shared_memory j = s.shared_memory j := by
  unfold stepP at hs
  unfold touchedP at hj
  split at hs
  · cases hs
  · split at hs <;> rename_i hpc <;> rw [hpc] at hj
    all_goals (try split at hs)
    all_goals try cases hs
    all_goals (first
      | rfl
      | (simp_all only [if_true, List.mem_singleton]
         exact storeByte_other _ _ _ _ hj)
      | (simp only [List.mem_cons, List.mem_singleton, List.not_mem_nil, or_false, not_or] at hj
         exact storeU16_other e _ _ _ _ hj.1 hj.2))

theorem stepC_frame (c : Config) (e : Endian) (s t : State)
    (hs : stepC c e s = some t) : t.shared_memory = s.shared_memory := by
  unfold stepC at hs
  split at hs
  · cases hs
  · split at hs
    all_goals (try split at hs)
    all_goals try cases hs
    all_goals rfl

/-! ## A corrupted block under every interleaving -/

theorem isBytes_storeByte (m : Mem) (i v : Nat) (h : IsBytes m) : IsBytes (storeByte m i v) := by
  intro j
  unfold storeByte
  split
  · exact Nat.mod_lt _ (by decide)
  · exact h j

theorem isBytes_storeU16 (e : Endian) (m : Mem) (k v : Nat) (h : IsBytes m) :
    IsBytes (storeU16 e m k v) := by
  cases e <;> exact isBytes_storeByte _ _ _ (isBytes_storeByte _ _ _ h)

theorem isBytes_stepP (c : Config) (rand : Nat → Int) (e : Endian) (s t : State)
    (h : IsBytes s.shared_memory) (hs : stepP c rand e s = some t) :
    IsBytes t.shared_memory := by
  unfold stepP at hs
  split at hs
  · cases hs
  · split at hs
    all_goals (try split at hs)
    all_goals try cases hs
    all_goals (first
      | exact h
      | exact isBytes_storeByte _ _ _ h
      | exact isBytes_storeU16 _ _ _ _ h)

theorem reachable_isBytes (c : Config) (rand : Nat → Int) (e : Endian) (m0 : Mem) (s : State)
    (hm0 : IsBytes m0) (h : Reachable c rand e (initState m0) s) : IsBytes s.shared_memory := by
  induction h with
  | start => exact hm0
  | next _ hstep ih =>
    rcases hstep with hp | hc
    · exact isBytes_stepP c rand e _ _ ih hp
    · rw [stepC_frame c e _ _ hc]; exact ih

theorem corrupt_bad (e : Endian) (m : Mem) (i off v : Nat) (hoff : off < 30) (hv : v < 256)
    (hold : m (32 * i + off) < 256) (hne : v ≠ m (32 * i + off)) (hg : Good e m i) :
    loadU16 e (storeByte m (32 * i + off) v) (trailerSlot (32 * i + 30)) =
      loadU16 e m (trailerSlot (32 * i + 30)) ∧
    loadU16 e (storeByte m (32 * i + off) v) (trailerSlot (32 * i + 30)) ≠
      (consumerLoop (storeByte m (32 * i + off) v) i).calculated_checksum := by
  have hslot := trailerSlot_stop i
  have h1 : loadU16 e (storeByte m (32 * i + off) v) (trailerSlot (32 * i + 30)) =
      loadU16 e m (trailerSlot (32 * i + 30)) :=
    loadU16_congr e _ _ _ (storeByte_other _ _ _ _ (by omega))
      (storeByte_other _ _ _ _ (by omega))
  refine ⟨h1, ?_⟩
  rw [h1]
  unfold Good at hg
  rw [hg, (consumerLoop_spec _ i).2, (consumerLoop_spec _ i).2]
  have hsum := sum_storeByte m (32 * i) v 30 off hoff
  rw [Nat.mod_eq_of_lt hv] at hsum
  omega

theorem accC_congr (e : Endian) (m m1 : Mem) (pc : CPc) (b idx acc g : Nat)
    (hm : ∀ j, 32 * b ≤ j → j < 32 * b + 32 → m1 j = m j)
    (hidx : pc = CPc.sum → idx ≤ 32 * b + 30)
    (h : accC e m pc b idx acc g) : accC e m1 pc b idx acc g := by
  have hslot := trailerSlot_stop b
  have hloop : consumerLoop m1 b = consumerLoop m b :=
    consumerLoop_congr m m1 b (fun k hk => hm _ (by omega) (by omega))
  cases pc <;> simp only [accC] at h ⊢
  · have := hidx rfl
    exact partialSum_congr m m1 _ _ _ h (fun j h1 h2 => hm j h1 (by omega))
  · rw [hloop]; exact h
  · rw [hloop, loadU16_congr e m m1 _ (hm _ (by omega) (by omega)) (hm _ (by omega) (by omega))]
    exact h

theorem touchedP_block (c : Config) (s : State) (hA : InvA c s) (a : Nat)
    (ha : a ∈ touchedP s) :
    critP s.pcP = true ∧ 32 * s.blockP ≤ a ∧ a < 32 * s.blockP + 32 := by
  have hlp := hA.locP
  unfold touchedP at ha
  have hq := payloadStop_eq s.blockP
  cases hpc : s.pcP <;> rw [hpc] at ha hlp <;> simp only [locP] at hlp <;>
    simp only [List.mem_cons, List.mem_singleton, List.not_mem_nil, or_false] at ha
  · split at ha
    · simp only [List.mem_singleton] at ha
      exact ⟨rfl, by omega, by omega⟩
    · simp at ha
  · exact ⟨rfl, by omega, by omega⟩
  · have hslot : trailerSlot (32 * s.blockP + 30) = 16 * s.blockP + 15 := by
      unfold trailerSlot; omega
    rw [hlp.2.2, hslot] at ha
    exact ⟨rfl, by omega, by omega⟩

theorem stepP_keeps (c : Config) (rand : Nat → Int) (e : Endian) (s t : State)
    (hs : stepP c rand e s = some t) :
    t.pcC = s.pcC ∧ t.nC = s.nC ∧ t.blockC = s.blockC ∧ t.indexC = s.indexC ∧
      t.calculated_checksum = s.calculated_checksum ∧ t.given_checksum = s.given_checksum ∧
      t.consumed = s.consumed ∧
      t.exited = s.exited ∧ s.exited = none := by
  unfold stepP at hs
  split at hs
  · cases hs
  · rename_i hex
    have hex2 : s.exited = none := by simpa using hex
    split at hs
    all_goals (try split at hs)
    all_goals try cases hs
    all_goals exact ⟨rfl, rfl, rfl, rfl, rfl, rfl, rfl, rfl, hex2⟩

theorem doomed_stepP (c : Config) (rand : Nat → Int) (e : Endian) (mb : Mem)
    (n i consumed0 : Nat) (t u : State) (hD : Doomed c e mb n i consumed0 t)
    (hs : stepP c rand e t = some u) : Doomed c e mb n i consumed0 u := by
  obtain ⟨pc, hn, hb, hidx, hcalc, hgiven, hcons, hex, hex0⟩ := stepP_keeps c rand e t u hs
  obtain ⟨hA, h1, h2, h3, h4, h5⟩ := hD
  rcases h5 with ⟨_, hread, hacc⟩ | h5
  swap
  · rw [hex0] at h5; cases h5
  have hord := reading_order c e t hA hread
  have hmem : ∀ j, 32 * i ≤ j → j < 32 * i + 32 →
      u.shared_memory j = t.shared_memory j := by
    intro j hj1 hj2
    apply stepP_frame c rand e t u hs
    intro hmemb
    obtain ⟨hcrit, ha1, ha2⟩ := touchedP_block c t hA j hmemb
    have hb1 : inBody t.pcP = 1 := by
      cases hpc : t.pcP <;> simp_all [critP, inBody]
    have hpp : posted t.pcP t.blockP = t.blockP := by
      cases hpc : t.pcP <;> simp_all [critP, posted]
    have := (hord.2.1 hb1).2
    omega
  have hidx2 : t.pcC = CPc.sum → t.indexC ≤ 32 * t.blockC + 30 := by
    intro hpc
    have hl := hA.locC
    rw [hpc] at hl
    simp only [locC] at hl
    omega
  refine ⟨invA_stepP c rand e t u hA hs, by rw [hcons]; exact h1, by rw [hn]; exact h2,
    by rw [hb]; exact h3, fun j hj1 hj2 => by rw [hmem j hj1 hj2]; exact h4 j hj1 hj2, ?_⟩
  left
  refine ⟨by rw [hex]; exact hex0, by rw [pc]; exact hread, ?_⟩
  rw [pc, hb, hidx, hcalc, hgiven]
  exact accC_congr e t.shared_memory u.shared_memory _ _ _ _ _
    (fun j hj1 hj2 => hmem j (by rw [← h3]; exact hj1) (by rw [← h3]; exact hj2)) hidx2 hacc

theorem doomed_stepC (c : Config) (e : Endian) (mb : Mem)
    (n i consumed0 : Nat) (t u : State) (hD : Doomed c e mb n i consumed0 t)
    (hbad : loadU16 e mb (trailerSlot (32 * i + 30)) ≠ (consumerLoop mb i).calculated_checksum)
    (hs : stepC c e t = some u) : Doomed c e mb n i consumed0 u := by
  obtain ⟨hA, h1, h2, h3, h4, h5⟩ := hD
  have hAu := invA_stepC c e t u hA hs
  have hex0 : t.exited = none := by
    unfold stepC at hs
    split at hs
    · cases hs
    · rename_i hx; simpa using hx
  rcases h5 with ⟨_, hread, hacc⟩ | h5
  swap
  · rw [hex0] at h5; cases h5
  have hl := hA.locC
  have hslot := trailerSlot_stop i
  have hcmp : t.pcC = CPc.cmp →
      t.given_checksum = loadU16 e mb (trailerSlot (32 * i + 30)) ∧
      t.calculated_checksum = (consumerLoop mb i).calculated_checksum := by
    intro hpc
    rw [hpc, h3] at hacc
    simp only [accC] at hacc
    rw [hacc.1, hacc.2]
    exact ⟨loadU16_congr e _ _ _ (h4 _ (by omega) (by omega)) (h4 _ (by omega) (by omega)),
      by rw [consumerLoop_congr mb t.shared_memory i (fun k hk => h4 _ (by omega) (by omega))]⟩
  unfold stepC at hs
  split at hs
  · cases hs
  · split at hs <;> rename_i hpc <;> rw [hpc] at hread hacc hl
    all_goals (try split at hs)
    all_goals try cases hs
    all_goals (first
      | (exact absurd hread (by decide))
      | (exfalso
         exact hbad (by
           rw [← (hcmp hpc).1, ← (hcmp hpc).2]
           exact Classical.not_not.mp (by assumption)))
      | skip)
    all_goals simp only [accC, locC] at hacc hl
    all_goals refine ⟨hAu, h1, h2, h3, h4, ?_⟩
    all_goals dsimp only
    all_goals try simp only [hpc, accC, reading, payloadStart_eq, hex0, true_and, and_true]
    all_goals (first
      | exact Or.inl (partialSum_start _ _)
      | exact Or.inl (partialSum_step _ _ _ _ hacc hl.2.2.1)
      | (left
         have hq := payloadStop_eq t.blockC
         have hi : t.indexC = 32 * t.blockC + 30 := by omega
         rw [hi] at hacc
         exact partialSum_full _ _ _ hacc)
      | (left
         rw [hl.2.2]
         exact ⟨hacc, rfl⟩)
      | (right
         rw [h2, h3, (hcmp hpc).1, (hcmp hpc).2]))

theorem doomed_reachable (c : Config) (rand : Nat → Int) (e : Endian) (mb : Mem)
    (n i consumed0 : Nat) (s t : State) (hD : Doomed c e mb n i consumed0 s)
    (hbad : loadU16 e mb (trailerSlot (32 * i + 30)) ≠ (consumerLoop mb i).calculated_checksum)
    (h : Reachable c rand e s t) : Doomed c e mb n i consumed0 t := by
  induction h with
  | start => exact hD
  | next _ hstep ih =>
    rcases hstep with hp | hc
    · exact doomed_stepP c rand e mb n i consumed0 _ _ ih hp
    · exact doomed_stepC c e mb n i consumed0 _ _ ih hbad hc

theorem doomed_progress (c : Config) (rand : Nat → Int) (e : Endian) (mb : Mem)
    (n i consumed0 : Nat) (t : State) (hD : Doomed c e mb n i consumed0 t)
    (hex : t.exited = none) :
    (∃ u, Step c rand e t u) ∧ reading t.pcC = true := by
  have hread : reading t.pcC = true := by
    rcases hD.phase with ⟨_, hr, _⟩ | h
    · exact hr
    · rw [hex] at h; cases h
  refine ⟨progress c rand e t hD.invA hex ?_, hread⟩
  intro hf
  rw [hf.2] at hread
  cases hread

theorem doomed_exits (c : Config) (rand : Nat → Int) (e : Endian) (mb : Mem)
    (n i consumed0 : Nat)
    (hbad : loadU16 e mb (trailerSlot (32 * i + 30)) ≠
      (consumerLoop mb i).calculated_checksum) :
    ∀ (k : Nat) (t : State), Doomed c e mb n i consumed0 t → remaining c t ≤ k →
      ∃ u, Reachable c rand e t u ∧ u.exited = some
        { block := i, iteration := n
          given_checksum := loadU16 e mb (trailerSlot (32 * i + 30))
          calculated_checksum := (consumerLoop mb i).calculated_checksum } := by
  intro k
  induction k with
  | zero =>
    intro t hD hk
    rcases hD.phase with ⟨hex, _, _⟩ | h
    · obtain ⟨⟨u, hu⟩, _⟩ := doomed_progress c rand e mb n i consumed0 t hD hex
      have := remaining_step c rand e t u hD.invA hu
      omega
    · exact ⟨t, Reachable.start, h⟩
  | succ k ih =>
    intro t hD hk
    rcases hD.phase with ⟨hex, _, _⟩ | h
    · obtain ⟨⟨u, hu⟩, _⟩ := doomed_progress c rand e mb n i consumed0 t hD hex
      have hlt := remaining_step c rand e t u hD.invA hu
      have hDu := doomed_reachable c rand e mb n i consumed0 t u hD hbad
        (Reachable.next Reachable.start hu)
      obtain ⟨w, hw, hwx⟩ := ih u hDu (by omega)
      exact ⟨w, reachable_head c rand e t u w hu hw, hwx⟩
    · exact ⟨t, Reachable.start, h⟩

/-- C2. Fatal on corruption, for block `i`, cycle `n`, payload offset
`off < 30` and byte value `v`. (1) Let the producer write block `i` (any region
before, any `rand()` values) and let the byte at offset `off` of the block then
be overwritten with `v`, different from what was there. Then the trailer is
still the checksum the producer stored, the consumer's recomputed checksum
differs from it, the consumer's critical section for block `i` in cycle `n`
takes the `exit(1)` branch reporting block `i`, iteration `n`, the stored and
the recomputed value, and in the step model the consumer's 34 steps from its
lock on end in the exited state with that report, with no further block
counted as checked, where no thread can step. (2) In the interleaved model:
take any state `s0` of a run (started on a region of bytes) in which the
consumer is about to take the mutex for block `i` of cycle `n`, and overwrite
that byte there. Then in every state `t` any interleaving reaches from it: no
further comparison has passed; as long as the process has not exited the
consumer is still at block `i` of cycle `n` and some thread can step; if it has
exited, the report is block `i`, iteration `n`, the stored trailer and the
recomputed checksum, which differ; every step lowers `remaining`; and the
exited state is reachable from `t`. -/
theorem C2_fatal_on_corruption (c : Config) (e : Endian) (rand : Nat → Int)
    (i n off v : Nat) (hoff : off < 30) (hv : v < 256) :
    (∀ (m : Mem) (calls : Nat), v ≠ (producerBlock e rand m calls i).1 (32 * i + off) →
      loadU16 e (storeByte (producerBlock e rand m calls i).1 (32 * i + off) v)
          (trailerSlot (32 * i + 30)) = (producerLoop rand m calls i).checksum ∧
      (producerLoop rand m calls i).checksum ≠
        (consumerLoop (storeByte (producerBlock e rand m calls i).1 (32 * i + off) v)
          i).calculated_checksum ∧
      consumerBlock e (storeByte (producerBlock e rand m calls i).1 (32 * i + off) v) i n =
        Except.error
          { block := i, iteration := n
            given_checksum := (producerLoop rand m calls i).checksum
            calculated_checksum := (consumerLoop
              (storeByte (producerBlock e rand m calls i).1 (32 * i + off) v)
              i).calculated_checksum } ∧
      ∀ (s : State),
        s.shared_memory = storeByte (producerBlock e rand m calls i).1 (32 * i + off) v →
        s.exited = none → s.pcC = CPc.lock → s.mutex = false → s.blockC = i → s.nC = n →
        ∃ t, consumerSteps c e 34 s = some t ∧
          t.exited = some
            { block := i, iteration := n
              given_checksum := (producerLoop rand m calls i).checksum
              calculated_checksum := (consumerLoop s.shared_memory i).calculated_checksum } ∧
          t.consumed = s.consumed ∧
          (∀ (r : Nat → Int) (u : State), ¬ Step c r e t u)) ∧
    (∀ (m0 : Mem) (s0 : State), IsBytes m0 → Reachable c rand e (initState m0) s0 →
      s0.pcC = CPc.lock → s0.nC = n → s0.blockC = i →
      v ≠ s0.shared_memory (32 * i + off) →
      loadU16 e s0.shared_memory (trailerSlot (32 * i + 30)) ≠
        (consumerLoop (storeByte s0.shared_memory (32 * i + off) v) i).calculated_checksum ∧
      ∀ t, Reachable c rand e
          { s0 with shared_memory := storeByte s0.shared_memory (32 * i + off) v } t →
        t.consumed = s0.consumed ∧
        (t.exited = none →
          reading t.pcC = true ∧ t.nC = n ∧ t.blockC = i ∧ ∃ u, Step c rand e t u) ∧
        (∀ r, t.exited = some r → r =
          { block := i, iteration := n
            given_checksum := loadU16 e s0.shared_memory (trailerSlot (32 * i + 30))
            calculated_checksum := (consumerLoop
              (storeByte s0.shared_memory (32 * i + off) v) i).calculated_checksum }) ∧
        (∀ u, Step c rand e t u → remaining c u < remaining c t) ∧
        (∃ u, Reachable c rand e t u ∧ u.exited = some
          { block := i, iteration := n
            given_checksum := loadU16 e s0.shared_memory (trailerSlot (32 * i + 30))
            calculated_checksum := (consumerLoop
              (storeByte s0.shared_memory (32 * i + off) v) i).calculated_checksum })) := by
  constructor
  · intro m calls hne
    have hcc := corrupted_checksum e rand m calls i off v hoff hv hne
    refine ⟨hcc.1, hcc.2, ?_, ?_⟩
    · simp only [consumerBlock]
      rw [(consumerLoop_spec _ i).1, hcc.1]
      simp [hcc.2]
    · intro s hmem hex hpc hmx hb hn
      obtain ⟨h1, -, -, t, ht1, ht2, ht3, ht4⟩ :=
        corrupted_block_check c e rand m calls i n off v hoff hv hne s hmem hex hpc hmx hb hn
      rw [h1] at ht2
      exact ⟨t, ht1, ht2, ht3, ht4⟩
  · intro m0 s0 hm0 hr hpc hn hb hne
    obtain ⟨hA, hM⟩ := reachable_inv c rand e m0 s0 hr
    have hbytes := reachable_isBytes c rand e m0 s0 hm0 hr
    have hread : reading s0.pcC = true := by rw [hpc]; rfl
    have hgood : Good e s0.shared_memory i := by
      rw [← hb]; exact (reading_order c e s0 hA hread).2.2.2 hM
    have hbad := corrupt_bad e s0.shared_memory i off v hoff hv (hbytes _) hne hgood
    have hbad2 : loadU16 e (storeByte s0.shared_memory (32 * i + off) v)
        (trailerSlot (32 * i + 30)) ≠
        (consumerLoop (storeByte s0.shared_memory (32 * i + off) v) i).calculated_checksum :=
      hbad.2
    refine ⟨by rw [← hbad.1]; exact hbad.2, ?_⟩
    intro t ht
    have hD0 : Doomed c e (storeByte s0.shared_memory (32 * i + off) v) n i s0.consumed
        { s0 with shared_memory := storeByte s0.shared_memory (32 * i + off) v } := by
      refine ⟨?_, rfl, hn, hb, fun _ _ _ => rfl, Or.inl ⟨hM.exited, hread, ?_⟩⟩
      · obtain ⟨a1, a2, a3, a4, a5, a6, a7, a8⟩ := hA
        exact ⟨a1, a2, a3, a4, a5, a6, a7, a8⟩
      · show accC e _ s0.pcC _ _ _ _
        rw [hpc]
        trivial
    have hD := doomed_reachable c rand e _ n i s0.consumed _ t hD0 hbad2 ht
    rw [← hbad.1]
    refine ⟨hD.consumed, ?_, ?_, fun u hu => remaining_step c rand e t u hD.invA hu,
      doomed_exits c rand e _ n i s0.consumed hbad2 _ t hD (Nat.le_refl _)⟩
    · intro hex
      obtain ⟨hstep, hrd⟩ := doomed_progress c rand e _ n i s0.consumed t hD hex
      exact ⟨hrd, hD.cycle, hD.block, hstep⟩
    · intro r hr2
      rcases hD.phase with ⟨hex, _, _⟩ | h
      · rw [hex] at hr2; cases hr2
      · rw [h] at hr2
        injection hr2 with hr2
        exact hr2.symm

set_option maxRecDepth 100000 in
theorem C2_fatal_on_corruption_witness :
    ((5 : Nat) < 30 ∧ (200 : Nat) < 256 ∧
      200 ≠ (producerBlock Endian.little (fun k => (k : Int) + 1000) (fun _ => 0) 0 0).1
        (32 * 0 + 5)) ∧
    consumerBlock Endian.little
      (storeByte (producerBlock Endian.little (fun k => (k : Int) + 1000) (fun _ => 0) 0 0).1
        (32 * 0 + 5) 200) 0 0 =
      Except.error
        { block := 0, iteration := 0
          given_checksum := (producerLoop (fun k => (k : Int) + 1000) (fun _ => 0) 0 0).checksum
          calculated_checksum := (consumerLoop
            (storeByte (producerBlock Endian.little (fun k => (k : Int) + 1000)
              (fun _ => 0) 0 0).1 (32 * 0 + 5) 200) 0).calculated_checksum } ∧
    ((exec ⟨32, 1, 1⟩ (fun k => (k : Int) + 1000) Endian.little
        (List.replicate 68 true ++ List.replicate 3 false) (initState (fun _ => 3))).pcC =
        CPc.lock ∧
      200 ≠ (exec ⟨32, 1, 1⟩ (fun k => (k : Int) + 1000) Endian.little
        (List.replicate 68 true ++ List.replicate 3 false)
        (initState (fun _ => 3))).shared_memory (32 * 0 + 5)) ∧
    loadU16 Endian.little
      (exec ⟨32, 1, 1⟩ (fun k => (k : Int) + 1000) Endian.little
        (List.replicate 68 true ++ List.replicate 3 false)
        (initState (fun _ => 3))).shared_memory (trailerSlot (32 * 0 + 30)) ≠
      (consumerLoop (storeByte
        (exec ⟨32, 1, 1⟩ (fun k => (k : Int) + 1000) Endian.little
          (List.replicate 68 true ++ List.replicate 3 false)
          (initState (fun _ => 3))).shared_memory (32 * 0 + 5) 200) 0).calculated_checksum :=
  ⟨⟨by decide, by decide, by decide⟩,
    ((C2_fatal_on_corruption ⟨32, 1, 1⟩ Endian.little (fun k => (k : Int) + 1000)
      0 0 5 200 (by decide) (by decide)).1 (fun _ => 0) 0 (by decide)).2.2.1,
    ⟨by decide, by decide⟩,
    ((C2_fatal_on_corruption ⟨32, 1, 1⟩ Endian.little (fun k => (k : Int) + 1000)
      0 0 5 200 (by decide) (by decide)).2 (fun _ => 3) _ (fun _ => (by decide : (3 : Nat) < 256))
      (reachable_exec ⟨32, 1, 1⟩ (fun k => (k : Int) + 1000) Endian.little
        (initState (fun _ => 3)) (List.replicate 68 true ++ List.replicate 3 false) _
        Reachable.start)
      (by decide) (by decide) (by decide) (by decide)).1⟩

/-! ## The step model and the sequential reading agree on a critical section -/

theorem producerSteps_add (c : Config) (rand : Nat → Int) (e : Endian) :
    ∀ (a b : Nat) (s : State),
      producerSteps c rand e (a + b) s =
        (producerSteps c rand e a s).bind (producerSteps c rand e b) := by
  intro a
  induction a with
  | zero => intro b s; simp [producerSteps]
  | succ a ih =>
    intro b s
    rw [Nat.succ_add]
    simp only [producerSteps]
    cases stepP c rand e s with
    | none => rfl
    | some t => simpa using ih b t

theorem producerSteps_fill (c : Config) (rand : Nat → Int) (e : Endian) :
    ∀ (k fuel : Nat) (s : State), s.exited = none → s.pcP = PPc.fill →
      s.indexP + k = payloadStop s.blockP → k ≤ fuel →
      producerSteps c rand e (2 * k) s = some { s with
        shared_memory := (producerFill rand (payloadStop s.blockP) fuel
          { mem := s.shared_memory, checksum := s.checksum, index := s.indexP
            calls := s.calls }).mem
        checksum := (producerFill rand (payloadStop s.blockP) fuel
          { mem := s.shared_memory, checksum := s.checksum, index := s.indexP
            calls := s.calls }).checksum
        indexP := payloadStop s.blockP
        calls := (producerFill rand (payloadStop s.blockP) fuel
          { mem := s.shared_memory, checksum := s.checksum, index := s.indexP
            calls := s.calls }).calls } := by
  intro k
  induction k with
  | zero =>
    intro fuel s _ _ hi _
    have hn : ¬ s.indexP < payloadStop s.blockP := by omega
    have hi2 : payloadStop s.blockP = s.indexP := by omega
    cases fuel <;> simp [producerSteps, producerFill, hn, hi2]
  | succ k ih =>
    intro fuel s hex hpc hi hf
    obtain ⟨f, rfl⟩ : ∃ f, fuel = f + 1 := ⟨fuel - 1, by omega⟩
    have hlt : s.indexP < payloadStop s.blockP := by omega
    have h2 : producerSteps c rand e 2 s = some { s with
        shared_memory := storeByte s.shared_memory s.indexP (randByte (rand s.calls))
        calls := s.calls + 1
        checksum := addU16 s.checksum
          (storeByte s.shared_memory s.indexP (randByte (rand s.calls)) s.indexP)
        indexP := s.indexP + 1 } := by
      simp [producerSteps, stepP, hex, hpc, hlt]
    have ih1 := ih f { s with
        shared_memory := storeByte s.shared_memory s.indexP (randByte (rand s.calls))
        calls := s.calls + 1
        checksum := addU16 s.checksum
          (storeByte s.shared_memory s.indexP (randByte (rand s.calls)) s.indexP)
        indexP := s.indexP + 1 }
      hex hpc (by simp only; omega) (by omega)
    have e1 := producerSteps_add c rand e 2 (2 * k) s
    rw [h2, Option.some_bind, ih1] at e1
    rw [show 2 * (k + 1) = 2 + 2 * k by omega, e1]
    simp [producerFill, hlt, fillBody]

/-- From its `pthread_mutex_lock` on, 63 steps of the producer (lock, 30 stores
and 30 additions, loop exit, trailer store) leave the region and the count of
`rand()` calls as `producerBlock` computes them. -/
theorem producerSteps_block (c : Config) (rand : Nat → Int) (e : Endian) (s : State)
    (hex : s.exited = none) (hpc : s.pcP = PPc.lock) (hmx : s.mutex = false) :
    producerSteps c rand e 63 s = some { s with
      mutex := true
      shared_memory := (producerBlock e rand s.shared_memory s.calls s.blockP).1
      calls := (producerBlock e rand s.shared_memory s.calls s.blockP).2
      checksum := (producerLoop rand s.shared_memory s.calls s.blockP).checksum
      indexP := payloadStop s.blockP
      produced := s.produced + 1
      pcP := PPc.unlock
      log := Event.writeEnd s.nP s.blockP :: Event.writeBegin s.nP s.blockP :: s.log } := by
  have h1 : producerSteps c rand e 1 s = some { s with
      mutex := true, checksum := 0, indexP := payloadStart s.blockP, pcP := PPc.fill
      log := Event.writeBegin s.nP s.blockP :: s.log } := by
    simp [producerSteps, stepP, hex, hpc, hmx]
  have h2 := producerSteps_fill c rand e 30 BLOCK_SIZE
    { s with mutex := true, checksum := 0, indexP := payloadStart s.blockP, pcP := PPc.fill
             log := Event.writeBegin s.nP s.blockP :: s.log }
    hex rfl (by simp [payloadStart_eq, payloadStop_eq]) (by decide)
  have e1 := producerSteps_add c rand e 1 62 s
  have e3 := producerSteps_add c rand e 60 2
    { s with mutex := true, checksum := 0, indexP := payloadStart s.blockP, pcP := PPc.fill
             log := Event.writeBegin s.nP s.blockP :: s.log }
  rw [show (60 : Nat) = 2 * 30 from rfl, h2, Option.some_bind] at e3
  rw [h1, Option.some_bind, show (62 : Nat) = 2 * 30 + 2 from rfl, e3] at e1
  rw [show (63 : Nat) = 1 + 62 from rfl, e1]
  have hidx := (producerLoop_spec rand s.shared_memory s.calls s.blockP).1
  simp only [producerLoop, payloadStop_eq, payloadStart_eq] at hidx
  simp [producerSteps, stepP, hex, producerBlock, producerLoop, payloadStop_eq,
    payloadStart_eq, hidx]

/-- From its `pthread_mutex_lock` on, 34 steps of the consumer (lock, 30
additions, loop exit, load, comparison) end as `consumerBlock` says: in the
exited state with its report, or at the unlock with one more block counted. -/
theorem consumerSteps_block (c : Config) (e : Endian) (s : State) (hex : s.exited = none)
    (hpc : s.pcC = CPc.lock) (hmx : s.mutex = false) :
    (∀ r, consumerBlock e s.shared_memory s.blockC s.nC = Except.error r →
      ∃ t, consumerSteps c e 34 s = some t ∧ t.exited = some r ∧ t.consumed = s.consumed) ∧
    (consumerBlock e s.shared_memory s.blockC s.nC = Except.ok () →
      ∃ t, consumerSteps c e 34 s = some t ∧ t.exited = none ∧ t.pcC = CPc.unlock ∧
        t.consumed = s.consumed + 1) := by
  have e1 := consumerSteps_add c e 33 1 s
  rw [consumerSteps_check c e s hex hpc hmx, Option.some_bind] at e1
  rw [show (34 : Nat) = 33 + 1 from rfl, e1]
  have hidx := (consumerLoop_spec s.shared_memory s.blockC).1
  simp only [consumerBlock, hidx, payloadStop_eq]
  by_cases hne : loadU16 e s.shared_memory (trailerSlot (32 * s.blockC + 30)) =
      (consumerLoop s.shared_memory s.blockC).calculated_checksum
  · simp [consumerSteps, stepC, hex, hne]
  · simp [consumerSteps, stepC, hex, hne]

/-! ## Claims on the interleaved runs -/

/-- C1. No data loss under a valid run: for every accepted configuration
(`memsize` a positive multiple of 32, at most 64000, `n_times ≥ 1`), every
stream of `rand()` values, either byte order and whatever the region held at
the start, in every state `s` any interleaving reaches: the process has not
taken `exit(1)`; at the comparison `given_checksum` is the trailer of the
block, `calculated_checksum` is the checksum of its payload, and the two are
equal; unless both threads have ended some thread can step; every step lowers
`remaining`, and no run is longer than
`n_times * (66 * blocks + 3) + 1 + (n_times * (37 * blocks + 3) + 1)` steps; a
state with both threads ended is reachable from `s`; and in every such state
exactly `n_times * (memsize / 32)` blocks were produced and as many
consumed. -/
theorem C1_no_data_loss (c : Config) (hc : Accepted c) (rand : Nat → Int) (e : Endian)
    (m0 : Mem) (s : State) (hr : Reachable c rand e (initState m0) s) :
    s.exited = none ∧
    (s.pcC = CPc.cmp →
      s.given_checksum = s.calculated_checksum ∧
      s.given_checksum = loadU16 e s.shared_memory (trailerSlot (32 * s.blockC + 30)) ∧
      s.calculated_checksum = (consumerLoop s.shared_memory s.blockC).calculated_checksum) ∧
    (¬ Finished s → ∃ t, Step c rand e s t) ∧
    (∀ t, Step c rand e s t → remaining c t < remaining c s) ∧
    (∀ k, ReachableIn c rand e (initState m0) k s →
      k ≤ c.n_times * (66 * c.blocks + 3) + 1 + (c.n_times * (37 * c.blocks + 3) + 1)) ∧
    (∃ t, Reachable c rand e s t ∧ Finished t ∧ t.exited = none ∧
      t.produced = c.n_times * (c.memsize / 32) ∧
      t.consumed = c.n_times * (c.memsize / 32)) ∧
    (Finished s →
      s.produced = c.n_times * (c.memsize / 32) ∧
      s.consumed = c.n_times * (c.memsize / 32)) := by
  have hcount : ∀ t, Reachable c rand e (initState m0) t → Finished t →
      t.produced = c.n_times * (c.memsize / 32) ∧
      t.consumed = c.n_times * (c.memsize / 32) := by
    intro t ht hf
    obtain ⟨hA, -⟩ := reachable_inv c rand e m0 t ht
    obtain ⟨hp, hcc⟩ := hf
    have h7 := hA.produced
    have h8 := hA.consumed
    have h5 := hA.locP
    have h6 := hA.locC
    rw [hp] at h7 h5
    rw [hcc] at h8 h6
    simp only [locP, locC, written, checked, Nat.add_zero] at h5 h6 h7 h8
    have hb : c.blocks = c.memsize / 32 := hc.2.2.2.1
    rw [h7, h8, h5, h6, hb]
    exact ⟨rfl, rfl⟩
  obtain ⟨hA, hM⟩ := reachable_inv c rand e m0 s hr
  refine ⟨hM.exited, ?_, progress c rand e s hA hM.exited,
    fun t ht => remaining_step c rand e s t hA ht, ?_, ?_, hcount s hr⟩
  · intro hpc
    have h := hM.accC
    have hg := (reading_order c e s hA (by rw [hpc]; rfl)).2.2.2 hM
    rw [hpc] at h
    unfold Good at hg
    rw [← h.1, ← h.2] at hg
    exact ⟨hg, h.2, h.1⟩
  · intro k hk
    have h1 := run_length c rand e m0 s k hk
    rw [remaining_init] at h1
    omega
  · obtain ⟨t, ht, hft⟩ := reaches_finished c rand e m0 _ s hr (Nat.le_refl _)
    have hrt := reachable_trans c rand e _ s t hr ht
    exact ⟨t, ht, hft, (reachable_inv c rand e m0 t hrt).2.exited, hcount t hrt hft⟩

set_option maxRecDepth 100000 in
theorem C1_no_data_loss_witness :
    Accepted ⟨64, 2, 1⟩ ∧
    Finished (exec ⟨64, 2, 1⟩ (fun k => (k : Int) * 37 + 11) Endian.little
      (inTurn 2 ++ demoSchedule) (initState (fun _ => 0))) ∧
    (exec ⟨64, 2, 1⟩ (fun k => (k : Int) * 37 + 11) Endian.little
      (inTurn 2 ++ demoSchedule) (initState (fun _ => 0))).exited = none ∧
    (exec ⟨64, 2, 1⟩ (fun k => (k : Int) * 37 + 11) Endian.little
      (inTurn 2 ++ demoSchedule) (initState (fun _ => 0))).produced = 2 ∧
    (exec ⟨64, 2, 1⟩ (fun k => (k : Int) * 37 + 11) Endian.little
      (inTurn 2 ++ demoSchedule) (initState (fun _ => 0))).consumed = 2 :=
  have h := C1_no_data_loss ⟨64, 2, 1⟩ (by decide) (fun k => (k : Int) * 37 + 11)
    Endian.little (fun _ => 0) _
    (reachable_exec ⟨64, 2, 1⟩ (fun k => (k : Int) * 37 + 11) Endian.little
      (initState (fun _ => 0)) (inTurn 2 ++ demoSchedule) _ Reachable.start)
  have hf : Finished (exec ⟨64, 2, 1⟩ (fun k => (k : Int) * 37 + 11) Endian.little
      (inTurn 2 ++ demoSchedule) (initState (fun _ => 0))) := by decide
  ⟨by decide, hf, h.1, (h.2.2.2.2.2.2 hf).1, (h.2.2.2.2.2.2 hf).2⟩

/-- C7. Write-before-read ordering: in every state any interleaving reaches
from `sem[0] = 1`, `sem[1] = 0`: (1) if the consumer is at block `i` of cycle
`n` anywhere between its return from `sem_wait(&sem[1])` and its comparison,
then `n < n_times`, `i < blocks`, and the producer's write of block `i` in
cycle `n` is complete: the producer is past the trailer store of that block,
it has stored at least `n * blocks + i + 1` trailers, if it holds the mutex it
is for a later block of the same cycle, and the block holds the checksum of
its payload; (2) whoever holds the mutex has logged the begin of its access;
(3) in the log, every begin of a read of block `i` in cycle `n` comes after
the trailer store of block `i` in cycle `n`, and neither the begin nor the end
of that write comes after it. -/
theorem C7_write_before_read (c : Config) (rand : Nat → Int) (e : Endian)
    (m0 : Mem) (s : State) (hr : Reachable c rand e (initState m0) s) (n i : Nat) :
    (reading s.pcC = true → s.nC = n → s.blockC = i →
      n < c.n_times ∧ i < c.blocks ∧
      producerPast s n i ∧
      n * c.blocks + i + 1 ≤ s.produced ∧
      (critP s.pcP = true → s.nP = n ∧ i < s.blockP) ∧
      Good e s.shared_memory i) ∧
    ((critC s.pcC = true → Event.readBegin s.nC s.blockC ∈ s.log) ∧
      (critP s.pcP = true → Event.writeBegin s.nP s.blockP ∈ s.log)) ∧
    (∀ newer older, s.log = newer ++ Event.readBegin n i :: older →
      Event.writeEnd n i ∈ older ∧
      Event.writeBegin n i ∉ newer ∧ Event.writeEnd n i ∉ newer) := by
  obtain ⟨hA, hM⟩ := reachable_inv c rand e m0 s hr
  have hL := reachable_invL c rand e m0 s hr
  have hT := reachable_invT c rand e m0 s hr
  refine ⟨?_, ⟨hT.readLogged, hT.writeLogged⟩, fun newer older hlog =>
    ⟨hL.writeRead n i newer older hlog, (hL.noRewrite n i).1 newer older hlog,
      (hL.noRewrite n i).2 newer older hlog⟩⟩
  intro hread hn hi
  obtain ⟨h1, h2, h3, h4⟩ := reading_order c e s hA hread
  have hloc := locC_reading c _ _ _ _ hread hA.locC
  have hprod := hA.produced
  have hpw := posted_le_written s.pcP s.blockP
  subst hn hi
  refine ⟨hloc.1, hloc.2, h1, ?_, ?_, h4 hM⟩
  · rcases Nat.eq_zero_or_pos (inBody s.pcP) with hb | hb
    · have := h3 hb
      rw [this, Nat.add_mul, Nat.one_mul] at hprod
      omega
    · have hb1 : inBody s.pcP = 1 := by have := inBody_le s.pcP; omega
      have := h2 hb1
      rw [this.1] at hprod
      omega
  · intro hcrit
    have hb1 : inBody s.pcP = 1 := by
      cases hpc : s.pcP <;> simp_all [critP, inBody]
    have := h2 hb1
    refine ⟨this.1, ?_⟩
    have hpp : posted s.pcP s.blockP = s.blockP := by
      cases hpc : s.pcP <;> simp_all [critP, posted]
    omega

set_option maxRecDepth 100000 in
theorem C7_write_before_read_witness :
    reading (exec ⟨32, 1, 1⟩ (fun k => (k : Int) + 5) Endian.big
      (List.replicate 68 true ++ List.replicate 6 false) (initState (fun _ => 3))).pcC = true ∧
    (exec ⟨32, 1, 1⟩ (fun k => (k : Int) + 5) Endian.big
      (List.replicate 68 true ++ List.replicate 6 false) (initState (fun _ => 3))).log =
      [] ++ Event.readBegin 0 0 ::
        [Event.writeEnd 0 0, Event.writeBegin 0 0, Event.cycleEntered 0] ∧
    producerPast (exec ⟨32, 1, 1⟩ (fun k => (k : Int) + 5) Endian.big
      (List.replicate 68 true ++ List.replicate 6 false) (initState (fun _ => 3))) 0 0 ∧
    Event.writeEnd 0 0 ∈ [Event.writeEnd 0 0, Event.writeBegin 0 0, Event.cycleEntered 0] :=
  have h := C7_write_before_read ⟨32, 1, 1⟩ (fun k => (k : Int) + 5) Endian.big
    (fun _ => 3) _
    (reachable_exec ⟨32, 1, 1⟩ (fun k => (k : Int) + 5) Endian.big (initState (fun _ => 3))
      (List.replicate 68 true ++ List.replicate 6 false) _ Reachable.start) 0 0
  ⟨by decide, by decide, (h.1 (by decide) (by decide) (by decide)).2.2.1,
    (h.2.2 [] [Event.writeEnd 0 0, Event.writeBegin 0 0, Event.cycleEntered 0]
      (by decide)).1⟩

/-- C8. Cycle alternation: in every state any interleaving reaches from
`sem[0] = 1`, `sem[1] = 0`: (1) if the producer is inside cycle `k+1`
(anywhere between its return from `sem_wait(&sem[0])` and the end of that
cycle, so in particular while it writes a block), then the consumer has left
cycle `k` behind: its cycle counter, which only its `sem_post(&sem[0])` step
raises, is above `k`, and it has checked at least `(k+1) * blocks` blocks;
(2) the producer's `sem_wait(&sem[0])` for cycle `k+1` returns only in such a
state; (3) in the log, every return of the producer from `sem_wait(&sem[0])`
for cycle `k+1`, and every begin of a write in cycle `k+1`, comes after the
consumer's `sem_post(&sem[0])` of cycle `k` and after the passed comparison of
every block of cycle `k`. -/
theorem C8_cycle_alternation (c : Config) (rand : Nat → Int) (e : Endian)
    (m0 : Mem) (s : State) (hr : Reachable c rand e (initState m0) s) (k : Nat) :
    (s.nP = k + 1 → inBody s.pcP = 1 → k < s.nC ∧ (k + 1) * c.blocks ≤ s.consumed) ∧
    (s.nP = k + 1 → writing s.pcP = true → k < s.nC ∧ (k + 1) * c.blocks ≤ s.consumed) ∧
    (∀ t, s.nP = k + 1 → s.pcP = PPc.semWait → stepP c rand e s = some t →
      k < s.nC ∧ (k + 1) * c.blocks ≤ s.consumed) ∧
    (∀ newer older, s.log = newer ++ Event.cycleEntered (k + 1) :: older →
      Event.cyclePosted k ∈ older ∧ ∀ b, b < c.blocks → Event.readEnd k b ∈ older) ∧
    (∀ b1 newer older, s.log = newer ++ Event.writeBegin (k + 1) b1 :: older →
      Event.cycleEntered (k + 1) ∈ older ∧ Event.cyclePosted k ∈ older ∧
      ∀ b, b < c.blocks → Event.readEnd k b ∈ older) := by
  obtain ⟨hA, -⟩ := reachable_inv c rand e m0 s hr
  have hL := reachable_invL c rand e m0 s hr
  have h0 := hA.sem0
  have h8 := hA.consumed
  have key : k < s.nC → k < s.nC ∧ (k + 1) * c.blocks ≤ s.consumed := by
    intro h
    have := Nat.mul_le_mul_right c.blocks (show k + 1 ≤ s.nC from h)
    exact ⟨h, by omega⟩
  have hbody : s.nP = k + 1 → inBody s.pcP = 1 →
      k < s.nC ∧ (k + 1) * c.blocks ≤ s.consumed :=
    fun hk hb => key (by omega)
  refine ⟨hbody, ?_, ?_, ?_, ?_⟩
  · intro hk hw
    apply hbody hk
    cases hpc : s.pcP <;> simp_all [writing, inBody]
  · intro t hk hpc hstep
    apply key
    rw [hpc] at h0
    simp only [inBody] at h0
    have hpos : 0 < s.sem0 := by
      by_contra hneg
      unfold stepP at hstep
      simp [hpc, hneg] at hstep
    omega
  · intro newer older hlog
    exact ⟨hL.postEnter k newer older hlog,
      fun b hb => hL.checkEnter k b hb newer older hlog⟩
  · intro b1 newer older hlog
    exact ⟨hL.enterWrite (k + 1) b1 newer older hlog, hL.postWrite k b1 newer older hlog,
      fun b hb => hL.checkWrite k b b1 hb newer older hlog⟩

set_option maxRecDepth 100000 in
theorem C8_cycle_alternation_witness :
    (exec ⟨32, 1, 2⟩ (fun k => (k : Int) + 5) Endian.big
      (List.replicate 69 true ++ List.replicate 41 false ++ List.replicate 5 true)
      (initState (fun _ => 3))).nP = 0 + 1 ∧
    writing (exec ⟨32, 1, 2⟩ (fun k => (k : Int) + 5) Endian.big
      (List.replicate 69 true ++ List.replicate 41 false ++ List.replicate 5 true)
      (initState (fun _ => 3))).pcP = true ∧
    0 < (exec ⟨32, 1, 2⟩ (fun k => (k : Int) + 5) Endian.big
      (List.replicate 69 true ++ List.replicate 41 false ++ List.replicate 5 true)
      (initState (fun _ => 3))).nC ∧
    (exec ⟨32, 1, 2⟩ (fun k => (k : Int) + 5) Endian.big
      (List.replicate 69 true ++ List.replicate 41 false ++ List.replicate 5 true)
      (initState (fun _ => 3))).log =
      [Event.writeBegin 1 0] ++ Event.cycleEntered (0 + 1) ::
        [Event.cyclePosted 0, Event.readEnd 0 0, Event.readBegin 0 0,
          Event.writeEnd 0 0, Event.writeBegin 0 0, Event.cycleEntered 0] ∧
    Event.cyclePosted 0 ∈ [Event.cyclePosted 0, Event.readEnd 0 0, Event.readBegin 0 0,
      Event.writeEnd 0 0, Event.writeBegin 0 0, Event.cycleEntered 0] :=
  have h := C8_cycle_alternation ⟨32, 1, 2⟩ (fun k => (k : Int) + 5) Endian.big (fun _ => 3) _
    (reachable_exec ⟨32, 1, 2⟩ (fun k => (k : Int) + 5) Endian.big (initState (fun _ => 3))
      (List.replicate 69 true ++ List.replicate 41 false ++ List.replicate 5 true) _
      Reachable.start) 0
  ⟨by decide, by decide, (h.2.1 (by decide) (by decide)).1, by decide,
    (h.2.2.2.1 [Event.writeBegin 1 0]
      [Event.cyclePosted 0, Event.readEnd 0 0, Event.readBegin 0 0,
        Event.writeEnd 0 0, Event.writeBegin 0 0, Event.cycleEntered 0] (by decide)).1⟩

/-- C9. In-bounds access: for an accepted configuration the blocks tile the
region exactly (`blocks * 32 = memsize`), and for every block `b < blocks`
every index the payload loops visit (from `block*BLOCK_SIZE` up to, not
including, `((block+1)*BLOCK_SIZE)-2`, that is `32*b .. 32*b+29`) and the two
bytes of the 16-bit object at subscript `(index+1)/2` with `index = 32*b+30`
lie below `memsize`. In the step model: in every state an interleaving
reaches, every byte offset the next step of either thread reads or writes
lies below `memsize`, and a step changes the region at those offsets only. -/
theorem C9_in_bounds (c : Config) (hc : Accepted c) (b : Nat) (hb : b < c.blocks) :
    c.blocks * 32 = c.memsize ∧
    payloadStart b = 32 * b ∧ payloadStop b = 32 * b + 30 ∧
    (∀ index, payloadStart b ≤ index → index < payloadStop b → index < c.memsize) ∧
    (∀ (rand : Nat → Int) (m : Mem) (calls : Nat),
      (producerLoop rand m calls b).index = payloadStop b ∧
      (consumerLoop m b).index = payloadStop b) ∧
    2 * trailerSlot (payloadStop b) = 2 * ((32 * b + 31) / 2) ∧
    2 * trailerSlot (payloadStop b) = 32 * b + 30 ∧
    2 * trailerSlot (payloadStop b) < c.memsize ∧
    2 * trailerSlot (payloadStop b) + 1 < c.memsize ∧
    (∀ (rand : Nat → Int) (e : Endian) (m0 : Mem) (s : State),
      Reachable c rand e (initState m0) s →
      (∀ a, a ∈ touchedP s → a < c.memsize) ∧
      (∀ a, a ∈ touchedC s → a < c.memsize) ∧
      (∀ t j, stepP c rand e s = some t → j ∉ touchedP s →
        t.shared_memory j = s.shared_memory j) ∧
      (∀ t, stepC c e s = some t → t.shared_memory = s.shared_memory)) := by
  have hc0 := hc
  obtain ⟨h1, h2, h3, h4, h5⟩ := hc
  have hB : BLOCK_SIZE = 32 := rfl
  rw [hB] at h4
  have hs := payloadStart_eq b
  have ht := payloadStop_eq b
  have hslot : trailerSlot (32 * b + 30) = 16 * b + 15 := by unfold trailerSlot; omega
  refine ⟨by omega, hs, ht, fun index h6 h7 => by omega, ?_, ?_, ?_, ?_, ?_, ?_⟩
  · intro rand m calls
    rw [ht]
    exact ⟨(producerLoop_spec rand m calls b).1, (consumerLoop_spec m b).1⟩
  · rw [ht, hslot]; omega
  · rw [ht, hslot]; omega
  · rw [ht, hslot]; omega
  · rw [ht, hslot]; omega
  · intro rand e m0 s hr
    have hA := (reachable_inv c rand e m0 s hr).1
    have hb := touched_in_bounds c hc0 s hA
    exact ⟨hb.1, hb.2, fun t j hst hj => stepP_frame c rand e s t hst j hj,
      fun t hst => stepC_frame c e s t hst⟩

theorem C9_in_bounds_witness :
    Accepted ⟨64000, 2000, 1⟩ ∧ (1999 : Nat) < 2000 ∧
    2 * trailerSlot (payloadStop 1999) + 1 < (64000 : Nat) :=
  ⟨by decide, by decide,
    (C9_in_bounds ⟨64000, 2000, 1⟩ (by decide) 1999 (by decide)).2.2.2.2.2.2.2.2.1⟩

end Prodcon
